import Mathlib

/-!
# Isaac3: packed fragment buffer, gap primitives and template building

A shallow embedding of the parts of the Isaac aligner that the ordering,
mate-linkage and gap contracts are about:

* `build/PackedFragmentBuffer.hh`: `PackedFragmentBuffer::Index`, its
  constructors, `hasMate`, the clipped length and unclipped position,
  `getFragment`, `getMate` and `orderForBam`;
* `build/gapRealigner/Gap.hh`: `Gap`, its length, kind and comparison
  accessors, the deletion end, and `GapsRange`;
* `alignment/TemplateBuilder.hh`: `buildFragments` and the `buildTemplate`
  contract;
* `oligo/KmerGenerator.hpp`: `KmerGenerator`, `generateKmer`, `getMaxKmer` and
  `MaxKmer`;
* `reference/ContigLoader.hh`: the loop of `loadContigsParallel`;
* `flowcell/BamLayout.cpp`: the two `Layout::getAttribute` specializations.

Unsigned 64-bit arithmetic is written on `Nat` with an explicit `% 2 ^ 64`,
`int` is `Int` with the range taken as a hypothesis where it matters. A call
that throws (`std::vector::at` out of range) or that the language leaves
undefined (`std::abs` of the least `int`) evaluates to `none`; where the kind
of failure matters the result is an `Except Failure`. A loop that the code may
never leave takes a bound on its iterations and gives `none` at the bound.
-/

namespace Isaac

/-! ## Reference positions -/

/-- Modelled from the spec: `reference::ReferencePosition`, whose header is not
among the sources. The spec describes it as a packed (contig index, offset)
value, "ordered total: compares by contig then offset". -/
structure ReferencePosition where
  contigId : Nat
  position : Nat
deriving DecidableEq, Repr

namespace ReferencePosition

/-- The comparison `operator<`: by contig, then by offset. -/
def less (a b : ReferencePosition) : Bool :=
  decide (a.contigId < b.contigId) ||
    (decide (a.contigId = b.contigId) && decide (a.position < b.position))

instance : LT ReferencePosition := ⟨fun a b => less a b = true⟩

instance decLt (a b : ReferencePosition) : Decidable (a < b) :=
  inferInstanceAs (Decidable (less a b = true))

end ReferencePosition

/-! ## Serialized fragments and index entries -/

/-- A CIGAR iterator `const uint32_t *`: the operation array it points into and
the element it points at. -/
structure CigarIterator where
  buffer : List Nat
  offset : Nat
deriving DecidableEq, Repr

/-- The bit flags of a serialized fragment that the code below reads. -/
structure FragmentFlags where
  unmapped_ : Bool
  secondRead_ : Bool
  reverse_ : Bool
deriving DecidableEq, Repr

/-- Modelled from the spec: `io::FragmentAccessor`, the view of one serialized
fragment record; its header is not among the sources. Only what
`PackedFragmentBuffer` reads is kept: the tile, the cluster id within the tile,
the flags and the CIGAR operations stored with the record. -/
structure FragmentAccessor where
  tile_ : Nat
  clusterId_ : Nat
  flags_ : FragmentFlags
  cigar_ : List Nat
deriving DecidableEq, Repr

namespace FragmentAccessor

/-- Iterator at the first CIGAR operation of the record. -/
def cigarBegin (f : FragmentAccessor) : CigarIterator := ⟨f.cigar_, 0⟩

/-- Iterator past the last CIGAR operation of the record. -/
def cigarEnd (f : FragmentAccessor) : CigarIterator := ⟨f.cigar_, f.cigar_.length⟩

/-- Strand of the record. -/
def isReverse (f : FragmentAccessor) : Bool := f.flags_.reverse_

end FragmentAccessor

/-- Modelled from the spec: `FStrandFragmentIndex` of `build/FragmentIndex.hh`
(not among the sources), with the fields the `Index` constructor reads. -/
structure FStrandFragmentIndex where
  fStrandPos_ : ReferencePosition
  dataOffset_ : Nat
  mateDataOffset_ : Nat
deriving DecidableEq, Repr

/-- Modelled from the spec: `RStrandOrShadowFragmentIndex` of
`build/FragmentIndex.hh` (not among the sources), with the fields the `Index`
constructor reads. -/
structure RStrandOrShadowFragmentIndex where
  fStrandPos_ : ReferencePosition
  dataOffset_ : Nat
  mateDataOffset_ : Nat
deriving DecidableEq, Repr

/-- Modelled from the spec: `SeFragmentIndex` of `build/FragmentIndex.hh` (not
among the sources), with the fields the `Index` constructor reads. -/
structure SeFragmentIndex where
  fStrandPos_ : ReferencePosition
  dataOffset_ : Nat
deriving DecidableEq, Repr

/-! ## `PackedFragmentBuffer::Index` -/

/-- The descriptor `PackedFragmentBuffer::Index`. -/
structure Index where
  pos_ : ReferencePosition
  dataOffset_ : Nat
  mateDataOffset_ : Nat
  cigarBegin_ : CigarIterator
  cigarEnd_ : CigarIterator
  reverse_ : Bool
deriving DecidableEq, Repr

namespace Index

/-- The six-argument constructor
`Index(pos, dataOffset, mateDataOffset_, cigarBegin, cigarEnd, reverse)`. Its
initializer list reads `mateDataOffset_(dataOffset)`. -/
def fromArgs (pos : ReferencePosition) (dataOffset : Nat) (_mateDataOffset : Nat)
    (cigarBegin cigarEnd : CigarIterator) (reverse : Bool) : Index :=
  Index.mk pos dataOffset dataOffset cigarBegin cigarEnd reverse

/-- The constructor `Index(const FStrandFragmentIndex &, const io::FragmentAccessor &)`. -/
def fromFStrand (idx : FStrandFragmentIndex) (fragment : FragmentAccessor) : Index :=
  Index.mk idx.fStrandPos_ idx.dataOffset_ idx.mateDataOffset_
    fragment.cigarBegin fragment.cigarEnd fragment.isReverse

/-- The constructor
`Index(const RStrandOrShadowFragmentIndex &, const io::FragmentAccessor &)`. -/
def fromRStrandOrShadow (idx : RStrandOrShadowFragmentIndex)
    (fragment : FragmentAccessor) : Index :=
  Index.mk idx.fStrandPos_ idx.dataOffset_ idx.mateDataOffset_
    fragment.cigarBegin fragment.cigarEnd fragment.isReverse

/-- The constructor `Index(const SeFragmentIndex &, const io::FragmentAccessor &)`. -/
def fromSe (idx : SeFragmentIndex) (fragment : FragmentAccessor) : Index :=
  Index.mk idx.fStrandPos_ idx.dataOffset_ idx.dataOffset_
    fragment.cigarBegin fragment.cigarEnd fragment.isReverse

/-- The test `hasMate()`: `mateDataOffset_ != dataOffset_`. -/
def hasMate (i : Index) : Bool := i.mateDataOffset_ != i.dataOffset_

end Index

/-! ## `PackedFragmentBuffer` -/

/-- Modelled from the spec: the packed byte buffer, "an opaque sequence of
fixed/variable-length fragment records referenced only by byte offset". `size`
is the number of bytes and `record o` is the record that the bytes starting at
offset `o` are read as (the `reinterpret_cast` of `&at(o)`). -/
structure PackedFragmentBuffer where
  size : Nat
  record : Nat → FragmentAccessor

namespace PackedFragmentBuffer

/-- The accessor `getFragment(const uint64_t offset)`: `at(offset)` throws when
the offset is not below the size of the vector. -/
def getFragmentAt (buf : PackedFragmentBuffer) (offset : Nat) : Option FragmentAccessor :=
  if offset < buf.size then some (buf.record offset) else none

/-- The accessor `getFragment(const Index &)`. -/
def getFragment (buf : PackedFragmentBuffer) (fragmentIndex : Index) :
    Option FragmentAccessor :=
  buf.getFragmentAt fragmentIndex.dataOffset_

/-- The accessor `getMate(const Index &)`. -/
def getMate (buf : PackedFragmentBuffer) (fragmentIndex : Index) :
    Option FragmentAccessor :=
  buf.getFragmentAt fragmentIndex.mateDataOffset_

/-- The comparison `orderForBam(left, right)`. The constant
`INSANELY_HIGH_NUMBER_OF_CLUSTERS_PER_TILE` is declared outside the sources and
is the parameter `clustersPerTile`; the two global cluster ids are `uint64_t`. -/
def orderForBam (clustersPerTile : Nat) (buf : PackedFragmentBuffer)
    (left right : Index) : Option Bool :=
  if left.pos_ < right.pos_ then
    some true
  else if left.pos_ = right.pos_ then do
    let leftFragment ← buf.getFragment left
    let rightFragment ← buf.getFragment right
    let leftGlobalClusterId :=
      (leftFragment.tile_ * clustersPerTile + leftFragment.clusterId_) % 2 ^ 64
    let rightGlobalClusterId :=
      (rightFragment.tile_ * clustersPerTile + rightFragment.clusterId_) % 2 ^ 64
    pure
      (decide (leftGlobalClusterId < rightGlobalClusterId) ||
        (decide (leftGlobalClusterId = rightGlobalClusterId) &&
          (decide (leftFragment.flags_.unmapped_.toNat < rightFragment.flags_.unmapped_.toNat) ||
            (decide (leftFragment.flags_.unmapped_.toNat = rightFragment.flags_.unmapped_.toNat) &&
              decide (leftFragment.flags_.secondRead_.toNat <
                rightFragment.flags_.secondRead_.toNat)))))
  else
    some false

/-- The global cluster id that `orderForBam` compares:
`tile_ * INSANELY_HIGH_NUMBER_OF_CLUSTERS_PER_TILE + clusterId_` in unsigned
64-bit arithmetic. -/
def globalClusterId (clustersPerTile : Nat) (f : FragmentAccessor) : Nat :=
  (f.tile_ * clustersPerTile + f.clusterId_) % 2 ^ 64

/-- The sort key the specification gives for BAM order, as a tuple under the
lexicographic order: position, global cluster id, unmapped flag, second-read
flag (flags ordered `false < true`). -/
def bamKey (clustersPerTile : Nat) (buf : PackedFragmentBuffer) (i : Index) :
    ReferencePosition ×ₗ ℕ ×ₗ Bool ×ₗ Bool :=
  toLex (i.pos_,
    toLex (globalClusterId clustersPerTile (buf.record i.dataOffset_),
      toLex ((buf.record i.dataOffset_).flags_.unmapped_,
        (buf.record i.dataOffset_).flags_.secondRead_)))

/-- The nested comparison of `orderForBam`, spelled out on the five numbers it
reads: contig, offset, global cluster id, unmapped flag, second-read flag. -/
def keyLess (n : Nat) (buf : PackedFragmentBuffer) (l r : Index) : Prop :=
  l.pos_.contigId < r.pos_.contigId ∨ (l.pos_.contigId = r.pos_.contigId ∧
    (l.pos_.position < r.pos_.position ∨ (l.pos_.position = r.pos_.position ∧
      (globalClusterId n (buf.record l.dataOffset_) <
          globalClusterId n (buf.record r.dataOffset_) ∨
        (globalClusterId n (buf.record l.dataOffset_) =
            globalClusterId n (buf.record r.dataOffset_) ∧
          ((buf.record l.dataOffset_).flags_.unmapped_.toNat <
              (buf.record r.dataOffset_).flags_.unmapped_.toNat ∨
            ((buf.record l.dataOffset_).flags_.unmapped_.toNat =
                (buf.record r.dataOffset_).flags_.unmapped_.toNat ∧
              (buf.record l.dataOffset_).flags_.secondRead_.toNat <
                (buf.record r.dataOffset_).flags_.secondRead_.toNat)))))))

end PackedFragmentBuffer

/-! ## `gapRealigner::Gap` -/

/-- Least value of the 32-bit `int`. -/
def INT_MIN : Int := -(2 ^ 31)

/-- Greatest value of the 32-bit `int`. -/
def INT_MAX : Int := 2 ^ 31 - 1

/-- The library function `std::abs(int)`: the absolute value, undefined when it
is not representable, which for an `int` argument is at `INT_MIN` only. -/
def stdAbs (x : Int) : Option Int :=
  if INT_MIN < x ∧ x ≤ INT_MAX then some (Int.natAbs x) else none

/-- The structure `Gap`; its constructor `Gap(pos, length, priority)` stores the
three arguments as they are (`priority` defaults to 0). -/
structure Gap where
  pos_ : ReferencePosition
  length_ : Int
  priority_ : Nat
deriving DecidableEq, Repr

namespace Gap

/-- The accessor `getLength()`: `std::abs(length_)` converted to `unsigned`. -/
def getLength (g : Gap) : Option Nat :=
  (stdAbs g.length_).map (fun v => (v % 2 ^ 32).toNat)

/-- The test `isInsertion()`: `0 > length_`. -/
def isInsertion (g : Gap) : Bool := decide (0 > g.length_)

/-- The test `isDeletion()`: `0 < length_`. -/
def isDeletion (g : Gap) : Bool := decide (0 < g.length_)

end Gap

/-! ## Template building -/

/-- Modelled from the spec: the three-way state of the position of a match or
fragment, `Position | NoMatch | TooManyMatch`, the two sentinels being "no
information, never a real position". -/
inductive MatchPosition where
  | position (p : ReferencePosition)
  | noMatch
  | tooManyMatch
deriving DecidableEq, Repr

/-- Modelled from the spec: `FragmentMetadata`, "a single read's best-known
alignment: contig+offset, strand, CIGAR operations, mismatch count,
log-probability/alignment score, clip lengths", with the fields that the choice
of a template reads. The log-probability is a rank on `Int` here. -/
structure FragmentMetadata where
  position : MatchPosition
  reverse : Bool
  mismatchCount : Nat
  logProbability : Int
  anchored : Bool
deriving DecidableEq, Repr

namespace FragmentMetadata

/-- A fragment is aligned when its position is a real one, not a sentinel. -/
def isAligned (f : FragmentMetadata) : Bool :=
  match f.position with
  | MatchPosition.position _ => true
  | MatchPosition.noMatch => false
  | MatchPosition.tooManyMatch => false

end FragmentMetadata

namespace TemplateBuilder

/-- The constant `SKIP_ORPHAN_HAMMING_DISTANCE` of `TemplateBuilder.hh`. -/
def SKIP_ORPHAN_HAMMING_DISTANCE : Nat := 3

/-- First element of greatest score, if any. -/
def bestBy {α : Type} (score : α → Int) : List α → Option α
  | [] => none
  | x :: xs =>
    match bestBy score xs with
    | some y => if score x < score y then some y else some x
    | none => some x

/-- Modelled from the spec: `getBestFragment` is declared in `TemplateBuilder.hh`
as the "helper method to select the fragment with the highest logProbability";
its body is not among the sources. -/
def getBestFragment (fragmentList : List FragmentMetadata) : Option FragmentMetadata :=
  bestBy (fun f => f.logProbability) fragmentList

/-- Modelled from the spec: step 1 of the paired-end algorithm, whose body is
not among the sources: "scan both read fragment lists for the pair with best
combined score where at least one fragment is anchored", comparing only
fragments that the template-length statistics accept as a pair (`consistent`). -/
def locateBestAnchoredPair (consistent : FragmentMetadata → FragmentMetadata → Bool)
    (r1 r2 : List FragmentMetadata) : Option (FragmentMetadata × FragmentMetadata) :=
  bestBy (fun p => p.1.logProbability + p.2.logProbability)
    ((r1.flatMap (fun a => r2.map (fun b => (a, b)))).filter
      (fun p => (p.1.anchored || p.2.anchored) && consistent p.1 p.2))

/-- Modelled from the spec: step 2 of the paired-end algorithm, whose body is
not among the sources: the Shadow Aligner oracle is asked for one placement of
the mate of the orphan, and the rescue is rejected "if mismatch count exceeds a
fixed hamming-distance budget". -/
def rescueShadow (shadowAligner : FragmentMetadata → Option FragmentMetadata)
    (orphan : FragmentMetadata) : Option FragmentMetadata :=
  match shadowAligner orphan with
  | some shadow =>
    if shadow.mismatchCount ≤ SKIP_ORPHAN_HAMMING_DISTANCE then some shadow else none
  | none => none

/-- Whether a template, one optional fragment per read, has a read aligned. -/
def anyAligned (bamTemplate : List (Option FragmentMetadata)) : Bool :=
  bamTemplate.any (fun o =>
    match o with
    | some f => f.isAligned
    | none => false)

/-- Modelled from the spec: `buildTemplate`, declared in `TemplateBuilder.hh`
with its body not among the sources. The input is one fragment list per read,
for one read (single-ended) or two (paired); any other number of reads is not
supported and gives `none`. Sentinel positions are no information, so only
fragments with a real position are candidates. For a pair the steps run in the
priority order of the spec: best anchored pair; else, when both reads have
candidates, the best fragment of each read as a disjointed template; else, when
one read has candidates, its best fragment with the mate rescued by the shadow
aligner when rescue is enabled and left unaligned otherwise; else an empty
template. The boolean is false when "no read aligned anywhere (template is fully
empty)". Repeat resolution, adapter trimming and mapping quality do not change
which reads are aligned and are left out. -/
def buildTemplate (rescueShadows : Bool)
    (consistent : FragmentMetadata → FragmentMetadata → Bool)
    (shadowAligner : FragmentMetadata → Option FragmentMetadata)
    (fragments : List (List FragmentMetadata)) :
    Option (Bool × List (Option FragmentMetadata)) :=
  match fragments.map (fun l => l.filter FragmentMetadata.isAligned) with
  | [r1] =>
    let bamTemplate := [getBestFragment r1]
    some (anyAligned bamTemplate, bamTemplate)
  | [r1, r2] =>
    let bamTemplate :=
      match locateBestAnchoredPair consistent r1 r2 with
      | some (a, b) => [some a, some b]
      | none =>
        match getBestFragment r1, getBestFragment r2 with
        | some a, some b => [some a, some b]
        | some a, none =>
          [some a, if rescueShadows then rescueShadow shadowAligner a else none]
        | none, some b =>
          [if rescueShadows then rescueShadow shadowAligner b else none, some b]
        | none, none => [none, none]
    some (anyAligned bamTemplate, bamTemplate)
  | _ => none

end TemplateBuilder

/-! ## Failures, position arithmetic and CIGAR operations -/

/-- How a call can fail: an `ISAAC_ASSERT_MSG` assertion with its message,
behaviour that the language leaves undefined, or an exception that a library
call throws. -/
inductive Failure where
  | assertion (message : String)
  | undefinedBehaviour
  | exception (what : String)
deriving DecidableEq, Repr

namespace ReferencePosition

/-- Modelled from the spec: `operator+` and `operator-` of a position and an
integer, whose header is not among the sources: "adding/subtracting an integer
shifts offset within the same contig". The offset stops at the start of the
contig. -/
def shift (p : ReferencePosition) (offset : Int) : ReferencePosition :=
  ReferencePosition.mk p.contigId (p.position + offset).toNat

end ReferencePosition

namespace Cigar

/-- The operation codes of `alignment/Cigar.hh` (not among the sources) that the
sources name, and any other code. -/
inductive OpCode where
  | INSERT
  | DELETE
  | SOFT_CLIP
  | other (code : Nat)
deriving DecidableEq, Repr

end Cigar

namespace CigarIterator

/-- The element an iterator points at; reading outside the array is undefined. -/
def deref (it : CigarIterator) : Except Failure Nat :=
  match it.buffer[it.offset]? with
  | some v => Except.ok v
  | none => Except.error Failure.undefinedBehaviour

end CigarIterator

namespace Index

/-- The accessor `getBeginClippedLength()`. The function `Cigar::decode` is
declared outside the sources and is the parameter `decode`, from an encoded
operation to its length and operation code. -/
def getBeginClippedLength (decode : Nat → Nat × Cigar.OpCode) (i : Index) :
    Except Failure Nat :=
  if i.cigarBegin_ ≠ i.cigarEnd_ then do
    let operation := decode (← i.cigarBegin_.deref)
    if Cigar.OpCode.SOFT_CLIP = operation.2 then
      pure operation.1
    else
      pure 0
  else
    Except.error (Failure.assertion "Unexpected empty CIGAR")

/-- The accessor `getUnclippedPosition()`: `pos_ - getBeginClippedLength()`. -/
def getUnclippedPosition (decode : Nat → Nat × Cigar.OpCode) (i : Index) :
    Except Failure ReferencePosition := do
  let clipped ← i.getBeginClippedLength decode
  pure (i.pos_.shift (-(clipped : Int)))

end Index

namespace Gap

/-- The comparison `comparePositionAndLength(left, right)`. -/
def comparePositionAndLength (left right : Gap) : Bool :=
  decide (left.pos_ = right.pos_) && decide (left.length_ = right.length_)

/-- The accessor `getDeletionEndPos()`: asserts `isDeletion()`, then
`pos_ + std::abs(length_)`. -/
def getDeletionEndPos (g : Gap) : Except Failure ReferencePosition :=
  if g.isDeletion then
    match stdAbs g.length_ with
    | some a => Except.ok (g.pos_.shift a)
    | none => Except.error Failure.undefinedBehaviour
  else
    Except.error (Failure.assertion "Expected a deletion gap")

end Gap

/-- An iterator `Gaps::const_iterator`: the sequence it runs over and the
element it points at. -/
structure GapsIterator where
  gaps : List Gap
  offset : Nat
deriving DecidableEq, Repr

/-- The structure `GapsRange`, a pair of iterators `first`, `second`. -/
structure GapsRange where
  first : GapsIterator
  second : GapsIterator
deriving DecidableEq, Repr

namespace GapsRange

/-- The test `empty()`: `second == first`. -/
def empty (r : GapsRange) : Bool := decide (r.second = r.first)

/-- The accessor `size()`: the iterator difference `second - first`, a signed
64-bit number, converted to `unsigned`. -/
def size (r : GapsRange) : Nat :=
  (((r.second.offset : Int) - (r.first.offset : Int)) % 2 ^ 32).toNat

/-- The gaps from `first` up to but excluding `second`, for a range over one
sequence. -/
def elements (r : GapsRange) : List Gap :=
  (r.first.gaps.take r.second.offset).drop r.first.offset

end GapsRange

/-! ## `TemplateBuilder::buildFragments` -/

/-- Modelled from the spec: `flowcell::ReadMetadata` (its header is not among
the sources), with the read index that `getIndex()` returns. -/
structure ReadMetadata where
  index_ : Nat
deriving DecidableEq, Repr

namespace ReadMetadata

/-- The accessor `getIndex()`. -/
def getIndex (r : ReadMetadata) : Nat := r.index_

end ReadMetadata

namespace FragmentBuilder

/-- Modelled from the spec: `FragmentBuilder::AlignmentType` (its header is not
among the sources), the "alignment-type classification (none/ungapped/gapped)";
`Nm` is the enumerator the sources name. -/
inductive AlignmentType where
  | Nm
  | ungapped
  | gapped
deriving DecidableEq, Repr

/-- What one call of the oracle `FragmentBuilder::build` leaves behind: its
return value, the output list, the cigar buffer and the state of the builder. -/
structure BuildOutcome (σ : Type) where
  alignmentType : AlignmentType
  fragmentList : List FragmentMetadata
  cigarBuffer : List Nat
  builder : σ

end FragmentBuilder

namespace TemplateBuilder

open FragmentBuilder

/-- The members of `TemplateBuilder` that `buildFragments` reads and writes. -/
structure Buffers (σ : Type) where
  cigarBuffer_ : List Nat
  fragments_ : List (List FragmentMetadata)
  fragmentBuilder_ : σ

/-- The loop of `buildFragments` over `readMetadataList`. The oracle
`fragmentBuilder_.build` is the parameter `build`: from the state of the
builder, the cigar buffer, the read and the output list it is handed, to what it
leaves behind; the arguments that stay the same during one call are part of it.
The function `combineAlignmentTypes` is declared outside the sources and is the
parameter of that name. `reserve` changes no contents. Indexing `fragments_`
outside its size is undefined and gives `none`. -/
def buildFragmentsLoop {σ : Type}
    (combineAlignmentTypes : AlignmentType → AlignmentType → AlignmentType)
    (build : σ → List Nat → ReadMetadata → List FragmentMetadata → BuildOutcome σ) :
    List ReadMetadata → AlignmentType → Buffers σ → Option (AlignmentType × Buffers σ)
  | [], ret, st => some (ret, st)
  | readMetadata :: rest, ret, st =>
    if readMetadata.getIndex < st.fragments_.length then
      let cleared : List FragmentMetadata := []
      let outcome := build st.fragmentBuilder_ st.cigarBuffer_ readMetadata cleared
      buildFragmentsLoop combineAlignmentTypes build rest
        (combineAlignmentTypes ret outcome.alignmentType)
        (Buffers.mk outcome.cigarBuffer
          (st.fragments_.set readMetadata.getIndex outcome.fragmentList) outcome.builder)
    else
      none

/-- The member function `buildFragments`: the cigar buffer is cleared, `ret`
starts as `Nm`, then the loop runs. -/
def buildFragments {σ : Type}
    (combineAlignmentTypes : AlignmentType → AlignmentType → AlignmentType)
    (build : σ → List Nat → ReadMetadata → List FragmentMetadata → BuildOutcome σ)
    (readMetadataList : List ReadMetadata) (st : Buffers σ) :
    Option (AlignmentType × Buffers σ) :=
  buildFragmentsLoop combineAlignmentTypes build readMetadataList AlignmentType.Nm
    (Buffers.mk [] st.fragments_ st.fragmentBuilder_)

/-- The calls of the oracle that the specification asks for: one per read, in
list order, each handed an empty output list, each continuing from the builder
state and cigar buffer that the call before left. Every call is listed with its
read and what it left behind. -/
def oracleCalls {σ : Type}
    (build : σ → List Nat → ReadMetadata → List FragmentMetadata → BuildOutcome σ) :
    List ReadMetadata → σ → List Nat → List (ReadMetadata × BuildOutcome σ)
  | [], _, _ => []
  | readMetadata :: rest, builder, cigarBuffer =>
    (readMetadata, build builder cigarBuffer readMetadata []) ::
      oracleCalls build rest (build builder cigarBuffer readMetadata []).builder
        (build builder cigarBuffer readMetadata []).cigarBuffer

/-- The output list of the last call made for read index `i`, if any. -/
def lastOutputFor {σ : Type} (i : Nat) :
    List (ReadMetadata × BuildOutcome σ) → Option (List FragmentMetadata)
  | [] => none
  | (readMetadata, outcome) :: rest =>
    match lastOutputFor i rest with
    | some l => some l
    | none => if readMetadata.getIndex = i then some outcome.fragmentList else none

end TemplateBuilder

/-! ## `oligo::KmerGenerator` and `generateKmer` -/

namespace oligo

/-- The constant `BITS_PER_BASE` of `oligo/Kmer.hh` (not among the sources): a
base takes the two bits by which the code shifts a k-mer, `kmer_ <<= 2`. -/
def BITS_PER_BASE : Nat := 2

/-- The constant `INVALID_OLIGO` of `oligo/Nucleotides.hh` (not among the
sources): the first value of the translator that is not a base, spelled `4` in
`next(T &, InputIteratorT &)` and `INVALID_OLIGO` in `next(T &)`. -/
def INVALID_OLIGO : Nat := 4

/-- The complement `~v` of a value of an unsigned type of `bits` bits. -/
def complement (bits v : Nat) : Nat := 2 ^ bits - 1 - v % 2 ^ bits

/-- The function `shlBases` of `oligo/Kmer.hh` (not among the sources), a left
shift by whole bases that drops what leaves the type, also when all bits leave
it. -/
def shlBases (bits v bases : Nat) : Nat := (v * 4 ^ bases) % 2 ^ bits

/-- The members of a `KmerGenerator`. The sequence is read through the
translator: `remaining` holds `defaultTranslator[*it]` for the elements from
`current_` up to `end_`, and the two iterators are kept as indices into the
sequence. -/
structure KmerGenerator where
  current_ : Nat
  remaining : List Nat
  end_ : Nat
  mask_ : Nat
  kmer_ : Nat
deriving DecidableEq, Repr

namespace KmerGenerator

/-- The loop of `initialize()`, from the current iterator, k-mer and
`currentLength`; `bits` is the width of `T`. -/
def initializeLoop (kmerLength bits : Nat) :
    List Nat → Nat → Nat → Nat → Nat × List Nat × Nat
  | [], current, kmer, _ => (current, [], kmer)
  | baseValue :: rest, current, kmer, currentLength =>
    if currentLength + 1 < kmerLength then
      if INVALID_OLIGO > baseValue then
        initializeLoop kmerLength bits rest (current + 1)
          (((kmer * 4) % 2 ^ bits) ||| (baseValue % 2 ^ bits)) (currentLength + 1)
      else
        initializeLoop kmerLength bits rest (current + 1) 0 0
    else
      (current, baseValue :: rest, kmer)

/-- The member function `initialize()`, a reserved word here, hence the longer
name. -/
def initializeKmer (kmerLength bits : Nat) (g : KmerGenerator) : KmerGenerator :=
  KmerGenerator.mk (initializeLoop kmerLength bits g.remaining g.current_ g.kmer_ 0).1
    (initializeLoop kmerLength bits g.remaining g.current_ g.kmer_ 0).2.1 g.end_ g.mask_
    (initializeLoop kmerLength bits g.remaining g.current_ g.kmer_ 0).2.2

/-- The constructor `KmerGenerator(begin, end)` for a sequence whose translated
elements are `bases`. -/
def create (kmerLength bits : Nat) (bases : List Nat) : Except Failure KmerGenerator :=
  if ¬ (BITS_PER_BASE * kmerLength ≤ bits) then
    Except.error (Failure.assertion "Type is insufficient to accommodate kmer length")
  else if (shlBases bits 1 kmerLength) &&&
      (complement bits (shlBases bits (complement bits 0) kmerLength)) ≠ 0 then
    Except.error (Failure.assertion "Left shift failed")
  else
    Except.ok (initializeKmer kmerLength bits
      (KmerGenerator.mk 0 bases bases.length
        (complement bits (shlBases bits (complement bits 0) kmerLength)) 0))

/-- The condition of the loop of `next`: an element is left and it is not a base. -/
def atInvalid (g : KmerGenerator) : Bool :=
  match g.remaining with
  | [] => false
  | baseValue :: _ => decide (INVALID_OLIGO ≤ baseValue)

/-- The loop `while (...) initialize();` of `next`, with `fuel` bounding the
number of iterations; `none` when the bound is reached. -/
def skipInvalid (kmerLength bits : Nat) : Nat → KmerGenerator → Option KmerGenerator
  | 0, g => if g.atInvalid then none else some g
  | fuel + 1, g =>
    if g.atInvalid then skipInvalid kmerLength bits fuel (g.initializeKmer kmerLength bits)
    else some g

/-- The member function `next(T &kmer, InputIteratorT &position)`: the generator
after the call, and the k-mer and position it wrote when it returned true. -/
def next (kmerLength bits fuel : Nat) (g : KmerGenerator) :
    Option (KmerGenerator × Option (Nat × Nat)) :=
  match skipInvalid kmerLength bits fuel g with
  | none => none
  | some g1 =>
    match g1.remaining with
    | baseValue :: rest =>
      some (KmerGenerator.mk (g1.current_ + 1) rest g1.end_ g1.mask_
          ((((g1.kmer_ * 4) % 2 ^ bits) ||| (baseValue % 2 ^ bits)) &&& g1.mask_),
        some ((((g1.kmer_ * 4) % 2 ^ bits) ||| (baseValue % 2 ^ bits)) &&& g1.mask_,
          g1.current_ + 1 - kmerLength))
    | [] => some (g1, none)

/-- The member function `next(T &kmer)`: the generator after the call, the
iterator it returned and the k-mer it wrote, if any. -/
def nextIterator (kmerLength bits fuel : Nat) (g : KmerGenerator) :
    Option (KmerGenerator × Nat × Option Nat) :=
  match skipInvalid kmerLength bits fuel g with
  | none => none
  | some g1 =>
    match g1.remaining with
    | baseValue :: rest =>
      some (KmerGenerator.mk (g1.current_ + 1) rest g1.end_ g1.mask_
          ((((g1.kmer_ * 4) % 2 ^ bits) ||| (baseValue % 2 ^ bits)) &&& g1.mask_),
        g1.current_ + 1 - kmerLength,
        some ((((g1.kmer_ * 4) % 2 ^ bits) ||| (baseValue % 2 ^ bits)) &&& g1.mask_))
    | [] => some (g1, g1.end_, none)

/-- The results of `calls` successive calls of `next(kmer, position)`. -/
def calls (kmerLength bits fuel : Nat) :
    Nat → KmerGenerator → Option (List (Option (Nat × Nat)))
  | 0, _ => some []
  | n + 1, g =>
    match next kmerLength bits fuel g with
    | none => none
    | some (g1, out) =>
      match calls kmerLength bits fuel n g1 with
      | none => none
      | some outs => some (out :: outs)

end KmerGenerator

/-- The encoding of a window of bases at two bits per base, first base most
significant. -/
def encodeKmer (window : List Nat) : Nat :=
  window.foldl (fun acc baseValue => acc * 4 + baseValue) 0

/-- The k-mers the specification asks for: for each start position in
increasing order, from `position` on, the window of `kmerLength` elements that
starts there, when it is complete and holds no invalid base, with its encoding
and its position. -/
def expectedKmers (kmerLength : Nat) : Nat → List Nat → List (Nat × Nat)
  | _, [] => []
  | position, baseValue :: rest =>
    (if kmerLength ≤ (baseValue :: rest).length ∧
        ∀ x ∈ (baseValue :: rest).take kmerLength, x < INVALID_OLIGO then
      [(encodeKmer ((baseValue :: rest).take kmerLength), position)]
    else []) ++ expectedKmers kmerLength (position + 1) rest

/-- A left shift `v << n` in an unsigned type of `bits` bits. A shift by the
width or more has no defined result; it is whatever `overshift` gives. -/
def shl (bits : Nat) (overshift : Nat → Nat → Nat) (v n : Nat) : Nat :=
  if n < bits then (v * 2 ^ n) % 2 ^ bits else overshift v n % 2 ^ bits

/-- The loop of `generateKmer`: `none` when the end of the sequence is met with
bases still to do, else the k-mer after the loop. -/
def generateKmerLoop (bits : Nat) : Nat → Nat → List Nat → Option Nat
  | 0, kmer, _ => some kmer
  | _ + 1, _, [] => none
  | todo + 1, kmer, baseValue :: rest =>
    generateKmerLoop bits todo (((kmer * 4) % 2 ^ bits) ||| (baseValue % 2 ^ bits)) rest

/-- The function `generateKmer(kmerLength, kmer, current, end)` for the
translated elements `remaining` of the range from `current` to `end`: whether it
returned true, and the k-mer it then wrote. `kmerLength` is `unsigned`, so
`2 * kmerLength` is taken in 32 bits. -/
def generateKmer (bits : Nat) (overshift : Nat → Nat → Nat) (kmerLength kmer : Nat)
    (remaining : List Nat) : Bool × Option Nat :=
  match generateKmerLoop bits kmerLength kmer remaining with
  | none => (false, none)
  | some shifted =>
    (true, some (shifted &&&
      ((shl bits overshift 1 ((2 * kmerLength) % 2 ^ 32) + (2 ^ bits - 1)) % 2 ^ bits)))

end oligo

namespace oligo

/-- The state of a generator between two calls of `next`, for k-mers of length
`k`: `run` are the valid bases read last, from position `p` on, already shifted
into `kmer_`; there are `k - 1` of them unless the sequence has ended. -/
def KmerGenerator.Ready (k : Nat) (g : KmerGenerator) (p : Nat) (run : List Nat) : Prop :=
  g.current_ = p + run.length ∧ (∀ x ∈ run, x < INVALID_OLIGO) ∧
    g.kmer_ % 4 ^ run.length = encodeKmer run ∧ run.length + 1 ≤ k ∧
    (g.remaining ≠ [] → run.length + 1 = k) ∧ g.mask_ = 4 ^ k - 1

end oligo

/-! ## Begin and end of a `Gap` -/

namespace Gap

/-- The accessor `getBeginPos()`. -/
def getBeginPos (g : Gap) : ReferencePosition := g.pos_

/-- The accessor `getEndPos(fatInserstions)`:
`(isDeletion() || fatInserstions) ? pos_ + std::abs(length_) : pos_`. -/
def getEndPos (g : Gap) (fatInserstions : Bool) : Except Failure ReferencePosition :=
  if g.isDeletion || fatInserstions then
    match stdAbs g.length_ with
    | some a => Except.ok (g.pos_.shift a)
    | none => Except.error Failure.undefinedBehaviour
  else
    Except.ok g.pos_

end Gap

/-! ## The greatest k-mer -/

namespace oligo

/-- The function `getMaxKmer<KmerT>(kmerLength)`: `~(~KmerT(0) << 2 * kmerLength)`
in an unsigned type of `bits` bits, `2 * kmerLength` being taken in 32 bits. For
a type narrower than `int` the operations are done in `int` and the result is
converted back, which gives the same value. -/
def getMaxKmer (bits : Nat) (overshift : Nat → Nat → Nat) (kmerLength : Nat) : Nat :=
  complement bits (shl bits overshift (complement bits 0) ((2 * kmerLength) % 2 ^ 32))

/-- The constant `MaxKmer<kmerLength, KmerT>::value`:
`(KmerT(1) << 2 * kmerLength) - 1` in an unsigned type of `bits` bits. -/
def MaxKmer (bits : Nat) (overshift : Nat → Nat → Nat) (kmerLength : Nat) : Nat :=
  (shl bits overshift 1 ((2 * kmerLength) % 2 ^ 32) + (2 ^ bits - 1)) % 2 ^ bits

end oligo

/-! ## `flowcell::Layout` attributes of BAM flowcells -/

namespace flowcell

/-- Modelled from the spec: the formats `Layout::Format` of `flowcell/Layout.hh`
(not among the sources): the two enumerators the sources name, and any other. -/
inductive Format where
  | Fastq
  | Bam
  | other (code : Nat)
deriving DecidableEq, Repr

/-- Modelled from the spec: `BamFlowcellData` of `flowcell/BamLayout.hh` (not
among the sources), with the field the sources read. -/
structure BamFlowcellData where
  allowVariableLength_ : Bool
deriving DecidableEq, Repr

/-- The variant `formatSpecificData_`: a `BamFlowcellData`, or the data of
another format. -/
inductive FormatSpecificData where
  | bam (data : BamFlowcellData)
  | other (which : Nat)
deriving DecidableEq, Repr

/-- Modelled from the spec: `flowcell::Layout` (its header is not among the
sources), with the members the two attribute getters read. -/
structure Layout where
  format_ : Format
  baseCallsPath_ : String
  formatSpecificData_ : FormatSpecificData
deriving DecidableEq, Repr

namespace Layout

/-- The specialization `getAttribute<Layout::Bam, BamFilePathAttributeTag>`: the
value it writes to `result` and returns. -/
def getAttributeBamFilePath (l : Layout) : Except Failure String :=
  if Format.Bam = l.format_ then
    Except.ok l.baseCallsPath_
  else
    Except.error (Failure.assertion " is only allowed for bam flowcells")

/-- The specialization `getAttribute<Layout::Bam, BamVariableLengthOk>`: the
value it writes to `result` and returns. Its assertion reads `Fastq == format_`;
`boost::get` throws when the variant holds another type. -/
def getAttributeBamVariableLengthOk (l : Layout) : Except Failure Bool :=
  if Format.Fastq = l.format_ then
    match l.formatSpecificData_ with
    | FormatSpecificData.bam data => Except.ok data.allowVariableLength_
    | FormatSpecificData.other _ => Except.error (Failure.exception "boost::bad_get")
  else
    Except.error (Failure.assertion " is only allowed for fastq flowcells")

end Layout

end flowcell

/-! ## `reference::loadContigsParallel` -/

namespace reference

/-- Modelled from the spec: `SortedReferenceMetadata::Contig` (its header is not
among the sources), with the members that change the contig list. -/
structure SortedReferenceMetadata.Contig where
  index_ : Nat
  karyotypeIndex_ : Nat
  name_ : String
deriving DecidableEq, Repr

/-- Modelled from the spec: `reference::Contig` (its header is not among the
sources): its index, its name and the bases loaded into it. -/
structure Contig where
  index_ : Nat
  name_ : String
  bases : List Nat
deriving DecidableEq, Repr

/-- The loop of `loadContigsParallel` as one worker runs it, from
`nextContigToLoad` to `contigsEnd`. The function `loadContig` is declared but
not defined in the sources and is the parameter of that name, as is the functor
`shouldLoad`. Trace output is left out. Indexing `contigList` outside its size
is undefined. -/
def loadContigsParallel (shouldLoad : Nat → Bool)
    (loadContig : SortedReferenceMetadata.Contig → Contig → Contig) :
    List SortedReferenceMetadata.Contig → List Contig → Except Failure (List Contig)
  | [], contigList => Except.ok contigList
  | ourContig :: rest, contigList =>
    match contigList[ourContig.karyotypeIndex_]? with
    | none => Except.error Failure.undefinedBehaviour
    | some contig =>
      if contig.index_ = ourContig.karyotypeIndex_ then
        loadContigsParallel shouldLoad loadContig rest
          (contigList.set ourContig.karyotypeIndex_
            (Contig.mk ourContig.index_ ourContig.name_
              (if shouldLoad ourContig.karyotypeIndex_ then loadContig ourContig contig
                else contig).bases))
      else
        Except.error
          (Failure.assertion "Unexpected order of preallocated contigs or index collision")

end reference

/-! ## Sample data -/

/-- A buffer of 48 bytes with three records: a mapped first read of cluster 7 of
tile 1 at offset 0, its unmapped second read at offset 16, and a mapped read of
cluster 3 of tile 2 elsewhere. -/
def sampleBuffer : PackedFragmentBuffer :=
  PackedFragmentBuffer.mk 48 (fun o =>
    if o = 0 then FragmentAccessor.mk 1 7 (FragmentFlags.mk false false false) [0x44]
    else if o = 16 then FragmentAccessor.mk 1 7 (FragmentFlags.mk true true false) []
    else FragmentAccessor.mk 2 3 (FragmentFlags.mk false false true) [0x44])

/-- Position 100 of contig 0. -/
def samplePos : ReferencePosition := ReferencePosition.mk 0 100

/-- An empty CIGAR view. -/
def sampleNoCigar : CigarIterator := CigarIterator.mk [] 0

/-- Index of the singleton at offset 0, mate at offset 16. -/
def sampleSingleton : Index := Index.mk samplePos 0 16 sampleNoCigar sampleNoCigar false

/-- Index of the shadow at offset 16, mate at offset 0. -/
def sampleShadow : Index := Index.mk samplePos 16 0 sampleNoCigar sampleNoCigar false

/-- Index of the unrelated read at offset 32, same position. -/
def sampleOther : Index := Index.mk samplePos 32 32 sampleNoCigar sampleNoCigar true

/-- A second index of the record at offset 0, with other mate and strand fields. -/
def sampleSingletonAlias : Index := Index.mk samplePos 0 0 sampleNoCigar sampleNoCigar true

/-- A fragment aligned at position 100 of contig 0. -/
def sampleFragment : FragmentMetadata :=
  FragmentMetadata.mk (MatchPosition.position samplePos) false 0 (-3) true

/-- A fragment whose position is the no-match sentinel. -/
def sampleNoMatchFragment : FragmentMetadata :=
  FragmentMetadata.mk MatchPosition.noMatch false 0 (-1) false

/-- A third index of the record at offset 0, with yet another mate offset. -/
def sampleSingletonThird : Index := Index.mk samplePos 0 32 sampleNoCigar sampleNoCigar false

/-- A decoder of CIGAR operations in the BAM layout: the length in the high
bits, the code in the low four bits, soft clip being code 4. -/
def sampleDecode (v : Nat) : Nat × Cigar.OpCode :=
  (v / 16,
    if v % 16 = 1 then Cigar.OpCode.INSERT
    else if v % 16 = 2 then Cigar.OpCode.DELETE
    else if v % 16 = 4 then Cigar.OpCode.SOFT_CLIP
    else Cigar.OpCode.other (v % 16))

/-- The CIGAR `5S100M3S`. -/
def sampleCigar : List Nat := [0x54, 0x640, 0x34]

/-- An index at position 100 whose CIGAR view is `5S100M3S`. -/
def sampleClippedIndex : Index :=
  Index.mk samplePos 0 0 (CigarIterator.mk sampleCigar 0) (CigarIterator.mk sampleCigar 3) false

/-- Three gaps: a deletion of 5, an insertion of 2 and a marker. -/
def sampleGaps : List Gap :=
  [Gap.mk samplePos 5 0, Gap.mk samplePos (-2) 1, Gap.mk samplePos 0 0]

/-- The range of the first two of the sample gaps. -/
def sampleGapsRange : GapsRange :=
  GapsRange.mk (GapsIterator.mk sampleGaps 0) (GapsIterator.mk sampleGaps 2)

/-- An oracle that finds the sample fragment for read 0 and nothing for read 1,
counts its calls and appends one CIGAR operation per call. -/
def sampleBuild (calls : Nat) (cigarBuffer : List Nat) (readMetadata : ReadMetadata)
    (out : List FragmentMetadata) : FragmentBuilder.BuildOutcome Nat :=
  if readMetadata.getIndex = 0 then
    FragmentBuilder.BuildOutcome.mk FragmentBuilder.AlignmentType.ungapped
      (out ++ [sampleFragment]) (cigarBuffer ++ [0x640]) (calls + 1)
  else
    FragmentBuilder.BuildOutcome.mk FragmentBuilder.AlignmentType.Nm out cigarBuffer
      (calls + 1)

/-- A combination of alignment types in which a gapped or ungapped result wins
over no match. -/
def sampleCombine (a b : FragmentBuilder.AlignmentType) : FragmentBuilder.AlignmentType :=
  if a = FragmentBuilder.AlignmentType.Nm then b else a

/-- The two reads of a pair. -/
def sampleReads : List ReadMetadata := [ReadMetadata.mk 0, ReadMetadata.mk 1]

/-- Builder buffers that still hold the fragments and CIGAR of an earlier cluster. -/
def sampleBuffers : TemplateBuilder.Buffers Nat :=
  TemplateBuilder.Buffers.mk [0x54] [[sampleNoMatchFragment], [sampleFragment], [sampleFragment]] 0

/-- A result for shifts by the width or more: the value shifted by the count
modulo 64, as some processors compute it. -/
def sampleOvershift (v n : Nat) : Nat := v * 2 ^ (n % 64)

/-- The sequence `ACGTNCCAG` as the translator reads it, `N` being 4. -/
def sampleBases : List Nat := [0, 1, 2, 3, 4, 1, 1, 0, 2]

/-- The generator for k-mers of length 1 in a 64-bit type over the sequence `N`,
as its constructor leaves it. -/
def sampleStuck : oligo.KmerGenerator := oligo.KmerGenerator.mk 0 [4] 1 3 0

/-- A BAM flowcell that allows reads of variable length. -/
def sampleBamLayout : flowcell.Layout :=
  flowcell.Layout.mk flowcell.Format.Bam "/data/run1/sample.bam"
    (flowcell.FormatSpecificData.bam (flowcell.BamFlowcellData.mk true))

/-- Two contigs of a reference, both with karyotype index 0. -/
def sampleXmlCollision : List reference.SortedReferenceMetadata.Contig :=
  [reference.SortedReferenceMetadata.Contig.mk 0 0 "chr1",
    reference.SortedReferenceMetadata.Contig.mk 1 0 "chr2"]

/-- Two contigs of a reference in reverse karyotype order. -/
def sampleXmlContigs : List reference.SortedReferenceMetadata.Contig :=
  [reference.SortedReferenceMetadata.Contig.mk 0 1 "chr1",
    reference.SortedReferenceMetadata.Contig.mk 1 0 "chr2"]

/-- The contig list as `loadContigs` preallocates it for two contigs. -/
def sampleContigList : List reference.Contig :=
  [reference.Contig.mk 0 "chr1" [], reference.Contig.mk 1 "chr2" []]

/-- A loader that reads two bases per contig. -/
def sampleLoadContig (_xmlContig : reference.SortedReferenceMetadata.Contig)
    (contig : reference.Contig) : reference.Contig :=
  reference.Contig.mk contig.index_ contig.name_ [0, 1]

/-! ## Evaluation lemmas -/

namespace ReferencePosition

theorem lt_iff (a b : ReferencePosition) :
    a < b ↔ a.contigId < b.contigId ∨ (a.contigId = b.contigId ∧ a.position < b.position) := by
  show less a b = true ↔ _
  simp [less]

theorem eq_iff (a b : ReferencePosition) :
    a = b ↔ a.contigId = b.contigId ∧ a.position = b.position := by
  cases a; cases b; simp

end ReferencePosition

namespace PackedFragmentBuffer

theorem getFragment_of_lt (buf : PackedFragmentBuffer) (i : Index)
    (h : i.dataOffset_ < buf.size) :
    buf.getFragment i = some (buf.record i.dataOffset_) := by
  simp [getFragment, getFragmentAt, h]

/-- For two indices inside the buffer `orderForBam` returns, and returns `true`
exactly on the nested comparison of the source. -/
theorem orderForBam_eval (n : Nat) (buf : PackedFragmentBuffer) (l r : Index)
    (hl : l.dataOffset_ < buf.size) (hr : r.dataOffset_ < buf.size) :
    ∃ b, orderForBam n buf l r = some b ∧
      (b = true ↔
        (l.pos_ < r.pos_ ∨ (l.pos_ = r.pos_ ∧
          (globalClusterId n (buf.record l.dataOffset_) <
              globalClusterId n (buf.record r.dataOffset_) ∨
            (globalClusterId n (buf.record l.dataOffset_) =
                globalClusterId n (buf.record r.dataOffset_) ∧
              ((buf.record l.dataOffset_).flags_.unmapped_.toNat <
                  (buf.record r.dataOffset_).flags_.unmapped_.toNat ∨
                ((buf.record l.dataOffset_).flags_.unmapped_.toNat =
                    (buf.record r.dataOffset_).flags_.unmapped_.toNat ∧
                  (buf.record l.dataOffset_).flags_.secondRead_.toNat <
                    (buf.record r.dataOffset_).flags_.secondRead_.toNat))))))) := by
  unfold orderForBam
  by_cases h1 : l.pos_ < r.pos_
  · exact ⟨true, by simp [h1], by simp [h1]⟩
  · by_cases h2 : l.pos_ = r.pos_
    · rw [if_neg h1, if_pos h2, getFragment_of_lt buf l hl, getFragment_of_lt buf r hr]
      refine ⟨_, rfl, ?_⟩
      have h3 : ¬ r.pos_ < r.pos_ := h2 ▸ h1
      simp only [h3, h2, false_or, true_and, globalClusterId, Bool.or_eq_true,
        Bool.and_eq_true, decide_eq_true_eq]
    · exact ⟨false, by simp [h1, h2], by simp [h1, h2]⟩

theorem orderForBam_true_iff (n : Nat) (buf : PackedFragmentBuffer) (l r : Index)
    (hl : l.dataOffset_ < buf.size) (hr : r.dataOffset_ < buf.size) :
    orderForBam n buf l r = some true ↔ keyLess n buf l r := by
  obtain ⟨b, hb, hiff⟩ := orderForBam_eval n buf l r hl hr
  rw [ReferencePosition.lt_iff, ReferencePosition.eq_iff] at hiff
  rw [hb, Option.some_inj, hiff]
  unfold keyLess
  constructor
  · rintro (h | ⟨⟨h1, h2⟩, h3⟩)
    · rcases h with h | ⟨h1, h2⟩
      · exact Or.inl h
      · exact Or.inr ⟨h1, Or.inl h2⟩
    · exact Or.inr ⟨h1, Or.inr ⟨h2, h3⟩⟩
  · rintro (h | ⟨h1, h2 | ⟨h2, h3⟩⟩)
    · exact Or.inl (Or.inl h)
    · exact Or.inl (Or.inr ⟨h1, h2⟩)
    · exact Or.inr ⟨⟨h1, h2⟩, h3⟩

theorem orderForBam_false_iff (n : Nat) (buf : PackedFragmentBuffer) (l r : Index)
    (hl : l.dataOffset_ < buf.size) (hr : r.dataOffset_ < buf.size) :
    orderForBam n buf l r = some false ↔ ¬ keyLess n buf l r := by
  rw [← orderForBam_true_iff n buf l r hl hr]
  obtain ⟨b, hb, -⟩ := orderForBam_eval n buf l r hl hr
  rw [hb]
  cases b <;> simp

theorem orderForBam_ne_true_iff (n : Nat) (buf : PackedFragmentBuffer) (l r : Index)
    (hl : l.dataOffset_ < buf.size) (hr : r.dataOffset_ < buf.size) :
    orderForBam n buf l r ≠ some true ↔ ¬ keyLess n buf l r := by
  rw [← orderForBam_true_iff n buf l r hl hr]

theorem bool_lt_iff_toNat (x y : Bool) : x < y ↔ x.toNat < y.toNat := by
  cases x <;> cases y <;> simp

theorem bool_eq_iff_toNat (x y : Bool) : x = y ↔ x.toNat = y.toNat := by
  cases x <;> cases y <;> simp

/-- The lexicographic order on the specification's key is the nested comparison. -/
theorem bamKey_lt_iff (n : Nat) (buf : PackedFragmentBuffer) (l r : Index) :
    bamKey n buf l < bamKey n buf r ↔ keyLess n buf l r := by
  unfold bamKey keyLess
  rw [Prod.Lex.lt_iff, Prod.Lex.lt_iff, Prod.Lex.lt_iff]
  simp only [ReferencePosition.lt_iff, ReferencePosition.eq_iff, bool_lt_iff_toNat,
    bool_eq_iff_toNat, ofLex_toLex]
  constructor
  · rintro (h | ⟨⟨h1, h2⟩, h3⟩)
    · rcases h with h | ⟨h1, h2⟩
      · exact Or.inl h
      · exact Or.inr ⟨h1, Or.inl h2⟩
    · exact Or.inr ⟨h1, Or.inr ⟨h2, h3⟩⟩
  · rintro (h | ⟨h1, h2 | ⟨h2, h3⟩⟩)
    · exact Or.inl (Or.inl h)
    · exact Or.inl (Or.inr ⟨h1, h2⟩)
    · exact Or.inr ⟨⟨h1, h2⟩, h3⟩

end PackedFragmentBuffer

/-! ## `orderForBam` is a strict weak order on the sort key -/

namespace PackedFragmentBuffer

/-- C1: `orderForBam` is a strict order on the indices that locate fragments
in one buffer: it is irreflexive, asymmetric and transitive. -/
theorem orderForBam_strict_order (n : Nat) (buf : PackedFragmentBuffer) (a b c : Index)
    (ha : a.dataOffset_ < buf.size) (hb : b.dataOffset_ < buf.size)
    (hc : c.dataOffset_ < buf.size) :
    orderForBam n buf a a = some false ∧
    (orderForBam n buf a b = some true → orderForBam n buf b a = some false) ∧
    (orderForBam n buf a b = some true → orderForBam n buf b c = some true →
      orderForBam n buf a c = some true) := by
  rw [orderForBam_false_iff n buf a a ha ha, orderForBam_true_iff n buf a b ha hb,
    orderForBam_false_iff n buf b a hb ha, orderForBam_true_iff n buf b c hb hc,
    orderForBam_true_iff n buf a c ha hc]
  unfold keyLess
  refine ⟨?_, ?_, ?_⟩
  · omega
  · omega
  · omega

/-- C2: incomparability under `orderForBam` is transitive: when neither of
`a`, `b` precedes the other and neither of `b`, `c` precedes the other, then
neither of `a`, `c` precedes the other. -/
theorem orderForBam_incomparable_trans (n : Nat) (buf : PackedFragmentBuffer)
    (a b c : Index) (ha : a.dataOffset_ < buf.size) (hb : b.dataOffset_ < buf.size)
    (hc : c.dataOffset_ < buf.size)
    (hab : orderForBam n buf a b ≠ some true) (hba : orderForBam n buf b a ≠ some true)
    (hbc : orderForBam n buf b c ≠ some true) (hcb : orderForBam n buf c b ≠ some true) :
    orderForBam n buf a c = some false ∧ orderForBam n buf c a = some false := by
  rw [orderForBam_ne_true_iff n buf _ _ (by assumption) (by assumption)] at hab hba hbc hcb
  rw [orderForBam_false_iff n buf a c ha hc, orderForBam_false_iff n buf c a hc ha]
  unfold keyLess at *
  constructor
  · omega
  · omega

/-- C3: for indices inside one buffer `orderForBam(left, right)` is true
exactly when the key (position, global cluster id, unmapped, second read) of
`left` is lexicographically below that of `right`; a smaller position alone
decides, and the mate offset, CIGAR view and strand of the indices play no part. -/
theorem orderForBam_iff_key_lt (n : Nat) (buf : PackedFragmentBuffer) (left right : Index)
    (hl : left.dataOffset_ < buf.size) (hr : right.dataOffset_ < buf.size) :
    (orderForBam n buf left right = some true ↔ bamKey n buf left < bamKey n buf right) ∧
    (orderForBam n buf left right = some false ↔
      ¬ bamKey n buf left < bamKey n buf right) ∧
    (left.pos_ < right.pos_ → orderForBam n buf left right = some true) ∧
    (right.pos_ < left.pos_ → orderForBam n buf left right = some false) ∧
    (∀ (m1 m2 : Nat) (b1 e1 b2 e2 : CigarIterator) (r1 r2 : Bool),
      orderForBam n buf (Index.mk left.pos_ left.dataOffset_ m1 b1 e1 r1)
          (Index.mk right.pos_ right.dataOffset_ m2 b2 e2 r2) =
        orderForBam n buf left right) := by
  refine ⟨?_, ?_, ?_, ?_, ?_⟩
  · rw [orderForBam_true_iff n buf left right hl hr, bamKey_lt_iff]
  · rw [orderForBam_false_iff n buf left right hl hr, bamKey_lt_iff]
  · intro h
    rw [orderForBam_true_iff n buf left right hl hr]
    rw [ReferencePosition.lt_iff] at h
    unfold keyLess
    omega
  · intro h
    rw [orderForBam_false_iff n buf left right hl hr]
    rw [ReferencePosition.lt_iff] at h
    unfold keyLess
    omega
  · intro m1 m2 b1 e1 b2 e2 r1 r2
    rfl

/-- C4: a mapped singleton `s` and its unmapped shadow `h` at the same position
and with the same global cluster id are ordered singleton first, whatever their
second-read flags, and whatever sorts between them has their position and their
global cluster id. -/
theorem orderForBam_singleton_before_shadow (n : Nat) (buf : PackedFragmentBuffer)
    (s h : Index) (hs : s.dataOffset_ < buf.size) (hh : h.dataOffset_ < buf.size)
    (hpos : s.pos_ = h.pos_)
    (hgid : globalClusterId n (buf.record s.dataOffset_) =
      globalClusterId n (buf.record h.dataOffset_))
    (hmapped : (buf.record s.dataOffset_).flags_.unmapped_ = false)
    (hunmapped : (buf.record h.dataOffset_).flags_.unmapped_ = true) :
    orderForBam n buf s h = some true ∧ orderForBam n buf h s = some false ∧
    ∀ c : Index, c.dataOffset_ < buf.size →
      orderForBam n buf s c = some true → orderForBam n buf c h = some true →
      c.pos_ = s.pos_ ∧
        globalClusterId n (buf.record c.dataOffset_) =
          globalClusterId n (buf.record s.dataOffset_) := by
  rw [ReferencePosition.eq_iff] at hpos
  refine ⟨?_, ?_, ?_⟩
  · rw [orderForBam_true_iff n buf s h hs hh]
    unfold keyLess
    simp only [hmapped, hunmapped, Bool.toNat_false, Bool.toNat_true]
    omega
  · rw [orderForBam_false_iff n buf h s hh hs]
    unfold keyLess
    simp only [hmapped, hunmapped, Bool.toNat_false, Bool.toNat_true]
    omega
  · intro c hc hsc hch
    rw [orderForBam_true_iff n buf s c hs hc] at hsc
    rw [orderForBam_true_iff n buf c h hc hh] at hch
    rw [ReferencePosition.eq_iff]
    unfold keyLess at hsc hch
    omega

/-- Witness of C1 on the sample buffer: singleton, shadow and an unrelated read. -/
theorem orderForBam_strict_order_witness :
    (sampleSingleton.dataOffset_ < sampleBuffer.size ∧
      sampleShadow.dataOffset_ < sampleBuffer.size ∧
      sampleOther.dataOffset_ < sampleBuffer.size) ∧
    (orderForBam 1000000 sampleBuffer sampleSingleton sampleSingleton = some false ∧
    (orderForBam 1000000 sampleBuffer sampleSingleton sampleShadow = some true →
      orderForBam 1000000 sampleBuffer sampleShadow sampleSingleton = some false) ∧
    (orderForBam 1000000 sampleBuffer sampleSingleton sampleShadow = some true →
      orderForBam 1000000 sampleBuffer sampleShadow sampleOther = some true →
      orderForBam 1000000 sampleBuffer sampleSingleton sampleOther = some true)) :=
  ⟨by decide, orderForBam_strict_order 1000000 sampleBuffer sampleSingleton sampleShadow
    sampleOther (by decide) (by decide) (by decide)⟩

/-- Witness of C2 on the sample buffer: three indices of equal key. -/
theorem orderForBam_incomparable_trans_witness :
    (orderForBam 1000000 sampleBuffer sampleSingleton sampleSingletonAlias ≠ some true ∧
      orderForBam 1000000 sampleBuffer sampleSingletonAlias sampleSingleton ≠ some true) ∧
    (orderForBam 1000000 sampleBuffer sampleSingletonAlias sampleSingletonThird ≠ some true ∧
      orderForBam 1000000 sampleBuffer sampleSingletonThird sampleSingletonAlias ≠ some true) ∧
    (orderForBam 1000000 sampleBuffer sampleSingleton sampleSingletonThird = some false ∧
      orderForBam 1000000 sampleBuffer sampleSingletonThird sampleSingleton = some false) :=
  ⟨by decide, by decide, orderForBam_incomparable_trans 1000000 sampleBuffer sampleSingleton
    sampleSingletonAlias sampleSingletonThird (by decide) (by decide) (by decide)
    (by decide) (by decide) (by decide) (by decide)⟩

/-- Witness of C3 on the sample buffer: the singleton against the unrelated read. -/
theorem orderForBam_iff_key_lt_witness :
    (sampleSingleton.dataOffset_ < sampleBuffer.size ∧
      sampleOther.dataOffset_ < sampleBuffer.size) ∧
    (orderForBam 1000000 sampleBuffer sampleSingleton sampleOther = some true ↔
      bamKey 1000000 sampleBuffer sampleSingleton < bamKey 1000000 sampleBuffer sampleOther) :=
  ⟨by decide, (orderForBam_iff_key_lt 1000000 sampleBuffer sampleSingleton sampleOther
    (by decide) (by decide)).1⟩

/-- Witness of C4 on the sample buffer: the singleton and its shadow. -/
theorem orderForBam_singleton_before_shadow_witness :
    (sampleSingleton.pos_ = sampleShadow.pos_ ∧
      (sampleBuffer.record sampleSingleton.dataOffset_).flags_.unmapped_ = false ∧
      (sampleBuffer.record sampleShadow.dataOffset_).flags_.unmapped_ = true) ∧
    (orderForBam 1000000 sampleBuffer sampleSingleton sampleShadow = some true ∧
      orderForBam 1000000 sampleBuffer sampleShadow sampleSingleton = some false) :=
  ⟨by decide,
    (orderForBam_singleton_before_shadow 1000000 sampleBuffer sampleSingleton sampleShadow
      (by decide) (by decide) (by decide) (by decide) (by decide) (by decide)).1,
    (orderForBam_singleton_before_shadow 1000000 sampleBuffer sampleSingleton sampleShadow
      (by decide) (by decide) (by decide) (by decide) (by decide) (by decide)).2.1⟩

end PackedFragmentBuffer

/-! ## Mate linkage of an `Index` -/

namespace Index

/-- C5: `hasMate()` is true exactly when `mateDataOffset_` differs from
`dataOffset_`; an index built from a `SeFragmentIndex` never has a mate, and one
built from an `FStrandFragmentIndex` or `RStrandOrShadowFragmentIndex` has a
mate exactly when the two offsets of that entry differ. -/
theorem hasMate_iff (i : Index) (se : SeFragmentIndex) (fs : FStrandFragmentIndex)
    (rs : RStrandOrShadowFragmentIndex) (fragment : FragmentAccessor) :
    (i.hasMate = true ↔ i.mateDataOffset_ ≠ i.dataOffset_) ∧
    (fromSe se fragment).hasMate = false ∧
    ((fromFStrand fs fragment).hasMate = true ↔ fs.mateDataOffset_ ≠ fs.dataOffset_) ∧
    ((fromRStrandOrShadow rs fragment).hasMate = true ↔
      rs.mateDataOffset_ ≠ rs.dataOffset_) := by
  simp [hasMate, fromSe, fromFStrand, fromRStrandOrShadow]

/-- C6, the code at a failing input: the six-argument constructor called with
data offset 0 and mate offset 16 stores 0 as `mateDataOffset_`, so `hasMate()`
is false and `getMate` reads the record at offset 0, not the one at offset 16. -/
theorem fromArgs_drops_mate_offset :
    (fromArgs samplePos 0 16 sampleNoCigar sampleNoCigar false).mateDataOffset_ = 0 ∧
    (fromArgs samplePos 0 16 sampleNoCigar sampleNoCigar false).hasMate = false ∧
    sampleBuffer.getMate (fromArgs samplePos 0 16 sampleNoCigar sampleNoCigar false) =
      some (sampleBuffer.record 0) ∧
    sampleBuffer.record 0 ≠ sampleBuffer.record 16 := by
  decide

end Index

namespace PackedFragmentBuffer

/-- C7: round trip through an `Index`. In a buffer that holds the record
`fragment` at offset `d` and the record `mate` at offset `m`, an index built from
an index entry with these two offsets reads back `fragment` through
`getFragment` and `mate` through `getMate`; an index built from a single-ended
entry reads the same record through both. -/
theorem getFragment_getMate_round_trip (buf : PackedFragmentBuffer) (d m : Nat)
    (fragment mate : FragmentAccessor)
    (hd : buf.getFragmentAt d = some fragment) (hm : buf.getFragmentAt m = some mate)
    (pos : ReferencePosition) (se : SeFragmentIndex) (any : FragmentAccessor) :
    buf.getFragment (Index.fromFStrand (FStrandFragmentIndex.mk pos d m) fragment) =
      some fragment ∧
    buf.getMate (Index.fromFStrand (FStrandFragmentIndex.mk pos d m) fragment) = some mate ∧
    buf.getFragment
      (Index.fromRStrandOrShadow (RStrandOrShadowFragmentIndex.mk pos d m) fragment) =
      some fragment ∧
    buf.getMate
      (Index.fromRStrandOrShadow (RStrandOrShadowFragmentIndex.mk pos d m) fragment) =
      some mate ∧
    buf.getFragment (Index.fromSe (SeFragmentIndex.mk pos d) fragment) = some fragment ∧
    buf.getMate (Index.fromSe (SeFragmentIndex.mk pos d) fragment) = some fragment ∧
    buf.getMate (Index.fromSe se any) = buf.getFragment (Index.fromSe se any) := by
  simp [getFragment, getMate, Index.fromFStrand, Index.fromRStrandOrShadow, Index.fromSe,
    hd, hm]

/-- Witness of C7 on the sample buffer: the singleton at offset 0 and its mate
at offset 16. -/
theorem getFragment_getMate_round_trip_witness :
    (sampleBuffer.getFragmentAt 0 = some (sampleBuffer.record 0) ∧
      sampleBuffer.getFragmentAt 16 = some (sampleBuffer.record 16)) ∧
    (sampleBuffer.getFragment
        (Index.fromFStrand (FStrandFragmentIndex.mk samplePos 0 16) (sampleBuffer.record 0)) =
      some (sampleBuffer.record 0) ∧
    sampleBuffer.getMate
        (Index.fromFStrand (FStrandFragmentIndex.mk samplePos 0 16) (sampleBuffer.record 0)) =
      some (sampleBuffer.record 16)) :=
  ⟨by decide,
    (getFragment_getMate_round_trip sampleBuffer 0 16 (sampleBuffer.record 0)
      (sampleBuffer.record 16) (by decide) (by decide) samplePos
      (SeFragmentIndex.mk samplePos 0) (sampleBuffer.record 0)).1,
    (getFragment_getMate_round_trip sampleBuffer 0 16 (sampleBuffer.record 0)
      (sampleBuffer.record 16) (by decide) (by decide) samplePos
      (SeFragmentIndex.mk samplePos 0) (sampleBuffer.record 0)).2.1⟩

end PackedFragmentBuffer

/-! ## Length and kind of a `Gap` -/

namespace Gap

/-- C9: for a gap constructed with a signed length `L` whose absolute value is
representable in `int`, `getLength()` is the absolute value of `L`, a gap of
length `-L` reports the same, and the value is non-negative. -/
theorem getLength_eq_abs (pos : ReferencePosition) (L : Int) (priority priority2 : Nat)
    (hL : |L| ≤ INT_MAX) :
    (Gap.mk pos L priority).getLength = some L.natAbs ∧
    (Gap.mk pos (-L) priority2).getLength = (Gap.mk pos L priority).getLength ∧
    ((L.natAbs : Int) = |L| ∧ (0 : Int) ≤ L.natAbs) := by
  have h1 : INT_MIN < L ∧ L ≤ INT_MAX := by
    unfold INT_MIN INT_MAX at *
    have := abs_le.mp hL
    omega
  have h2 : INT_MIN < -L ∧ -L ≤ INT_MAX := by
    unfold INT_MIN INT_MAX at *
    have := abs_le.mp hL
    omega
  have h3 : ((L.natAbs : Int) % 2 ^ 32).toNat = L.natAbs := by
    unfold INT_MAX at hL
    have := abs_le.mp hL
    omega
  refine ⟨?_, ?_, ?_, ?_⟩
  · simp only [getLength, stdAbs, h1, and_self, if_true, Option.map_some', h3]
  · simp only [getLength, stdAbs, h1, h2, and_self, if_true, Option.map_some',
      Int.natAbs_neg]
  · exact Int.natCast_natAbs L
  · exact Int.ofNat_nonneg _

/-- Witness of C9: a deletion of 5 bases and an insertion of 5 bases. -/
theorem getLength_eq_abs_witness :
    |(5 : Int)| ≤ INT_MAX ∧
    (Gap.mk samplePos 5 0).getLength = some 5 ∧
    (Gap.mk samplePos (-5) 0).getLength = (Gap.mk samplePos 5 0).getLength :=
  ⟨by decide, (getLength_eq_abs samplePos 5 0 0 (by decide)).1,
    (getLength_eq_abs samplePos 5 0 0 (by decide)).2.1⟩

/-- C10: `isDeletion()` holds exactly when `length_ > 0` and `isInsertion()`
exactly when `length_ < 0`; they are never both true, they differ exactly when
`length_` is not 0, and both are false for a zero-length marker gap. -/
theorem isInsertion_isDeletion (g : Gap) (pos : ReferencePosition) (priority : Nat) :
    (g.isDeletion = true ↔ g.length_ > 0) ∧
    (g.isInsertion = true ↔ g.length_ < 0) ∧
    ¬ (g.isInsertion = true ∧ g.isDeletion = true) ∧
    (g.isInsertion ≠ g.isDeletion ↔ g.length_ ≠ 0) ∧
    (Gap.mk pos 0 priority).isInsertion = false ∧
    (Gap.mk pos 0 priority).isDeletion = false := by
  refine ⟨?_, ?_, ?_, ?_, ?_, ?_⟩
  · simp [isDeletion]
  · simp [isInsertion]
  · simp only [isInsertion, isDeletion, decide_eq_true_eq]
    omega
  · simp only [isInsertion, isDeletion, ne_eq]
    rcases lt_trichotomy g.length_ 0 with h | h | h
    · have h2 : ¬ (0 < g.length_) := by omega
      have h3 : g.length_ ≠ 0 := by omega
      simp [h, h2, h3]
    · simp [h]
    · have h2 : ¬ (0 > g.length_) := by omega
      have h3 : g.length_ ≠ 0 := by omega
      simp [h, h2, h3]
  · simp [isInsertion]
  · simp [isDeletion]

end Gap

/-! ## The result of `buildTemplate` -/

namespace TemplateBuilder

theorem bestBy_eq_none {α : Type} (score : α → Int) (l : List α) :
    bestBy score l = none ↔ l = [] := by
  cases l with
  | nil => simp [bestBy]
  | cons x xs =>
    simp only [bestBy, reduceCtorEq, iff_false]
    cases bestBy score xs with
    | none => simp
    | some y =>
      by_cases h : score x < score y <;> simp [h]

theorem bestBy_mem {α : Type} (score : α → Int) (l : List α) (x : α)
    (h : bestBy score l = some x) : x ∈ l := by
  induction l generalizing x with
  | nil => simp [bestBy] at h
  | cons y ys ih =>
    simp only [bestBy] at h
    cases hb : bestBy score ys with
    | none =>
      rw [hb] at h
      simp only [Option.some.injEq] at h
      simp [h]
    | some z =>
      rw [hb] at h
      by_cases hlt : score y < score z
      · simp only [hlt, if_true, Option.some.injEq] at h
        subst h
        exact List.mem_cons_of_mem _ (ih z hb)
      · simp only [hlt, if_false, Option.some.injEq] at h
        simp [h]

theorem getBestFragment_aligned (l : List FragmentMetadata) (a : FragmentMetadata)
    (h : getBestFragment (l.filter FragmentMetadata.isAligned) = some a) :
    a ∈ l ∧ a.isAligned = true := by
  have := bestBy_mem _ _ _ h
  simpa [List.mem_filter] using this

theorem getBestFragment_none (l : List FragmentMetadata) :
    getBestFragment (l.filter FragmentMetadata.isAligned) = none ↔
      ∀ f ∈ l, f.isAligned = false := by
  unfold getBestFragment
  rw [bestBy_eq_none, List.filter_eq_nil_iff]
  simp

theorem locateBestAnchoredPair_aligned
    (consistent : FragmentMetadata → FragmentMetadata → Bool)
    (l1 l2 : List FragmentMetadata) (a b : FragmentMetadata)
    (h : locateBestAnchoredPair consistent (l1.filter FragmentMetadata.isAligned)
      (l2.filter FragmentMetadata.isAligned) = some (a, b)) :
    a ∈ l1 ∧ a.isAligned = true := by
  have := bestBy_mem _ _ _ h
  simp only [List.mem_filter, List.mem_flatMap, List.mem_map, Prod.mk.injEq] at this
  obtain ⟨⟨x, ⟨hx1, hx2⟩, y, -, hxa, -⟩, -⟩ := this
  subst hxa
  exact ⟨hx1, hx2⟩

/-- C8: for a single-ended or paired cluster `buildTemplate` returns, and it
returns false exactly when no read has a fragment with a real position, true
exactly when some read has one. -/
theorem buildTemplate_false_iff (rescueShadows : Bool)
    (consistent : FragmentMetadata → FragmentMetadata → Bool)
    (shadowAligner : FragmentMetadata → Option FragmentMetadata)
    (fragments : List (List FragmentMetadata))
    (hreads : fragments.length = 1 ∨ fragments.length = 2) :
    ∃ ret bamTemplate,
      buildTemplate rescueShadows consistent shadowAligner fragments =
        some (ret, bamTemplate) ∧
      (ret = false ↔ ∀ l ∈ fragments, ∀ f ∈ l, f.isAligned = false) ∧
      (ret = true ↔ ∃ l ∈ fragments, ∃ f ∈ l, f.isAligned = true) := by
  have key : ∃ ret bamTemplate,
      buildTemplate rescueShadows consistent shadowAligner fragments =
        some (ret, bamTemplate) ∧
      (ret = false ↔ ∀ l ∈ fragments, ∀ f ∈ l, f.isAligned = false) := by
    rcases hreads with h | h
    · obtain ⟨l1, rfl⟩ := List.length_eq_one.mp h
      refine ⟨_, _, rfl, ?_⟩
      cases hb : getBestFragment (l1.filter FragmentMetadata.isAligned) with
      | none =>
        have := (getBestFragment_none l1).mp hb
        simpa [anyAligned, hb] using this
      | some a =>
        obtain ⟨ha1, ha2⟩ := getBestFragment_aligned l1 a hb
        simp only [List.map_cons, List.map_nil, hb, anyAligned, List.any_cons, ha2,
          List.any_nil, Bool.or_false, reduceCtorEq, List.mem_singleton, forall_eq,
          false_iff, not_forall]
        exact ⟨a, ha1, by simp [ha2]⟩
    · obtain ⟨l1, l2, rfl⟩ := List.length_eq_two.mp h
      refine ⟨_, _, rfl, ?_⟩
      simp only [List.map_cons, List.map_nil, List.mem_cons, List.mem_singleton,
        List.not_mem_nil, or_false, forall_eq_or_imp, forall_eq]
      cases hp : locateBestAnchoredPair consistent (l1.filter FragmentMetadata.isAligned)
          (l2.filter FragmentMetadata.isAligned) with
      | some p =>
        obtain ⟨a, b⟩ := p
        obtain ⟨ha1, ha2⟩ := locateBestAnchoredPair_aligned consistent l1 l2 a b hp
        simp only [anyAligned, List.any_cons, ha2, Bool.true_or, reduceCtorEq, false_iff,
          not_and]
        intro hall
        have := hall a ha1
        simp [ha2] at this
      | none =>
        cases hb1 : getBestFragment (l1.filter FragmentMetadata.isAligned) with
        | some a =>
          obtain ⟨ha1, ha2⟩ := getBestFragment_aligned l1 a hb1
          have hne : ¬ (∀ f ∈ l1, f.isAligned = false) := by
            intro hall
            have := hall a ha1
            simp [ha2] at this
          cases hb2 : getBestFragment (l2.filter FragmentMetadata.isAligned) <;>
            simp [anyAligned, ha2, hne]
        | none =>
          have h1 := (getBestFragment_none l1).mp hb1
          cases hb2 : getBestFragment (l2.filter FragmentMetadata.isAligned) with
          | some b =>
            obtain ⟨hb1, hb2⟩ := getBestFragment_aligned l2 b hb2
            have hne : ¬ (∀ f ∈ l2, f.isAligned = false) := by
              intro hall
              have := hall b hb1
              simp [hb2] at this
            simp [anyAligned, hb2, hne]
          | none =>
            have h2 := (getBestFragment_none l2).mp hb2
            simp only [anyAligned, List.any_cons, List.any_nil, Bool.or_false, true_iff]
            exact ⟨h1, h2⟩
  obtain ⟨ret, bamTemplate, hret, hfalse⟩ := key
  refine ⟨ret, bamTemplate, hret, hfalse, ?_⟩
  cases ret with
  | true =>
    simp only [true_iff]
    by_contra hno
    have : ∀ l ∈ fragments, ∀ f ∈ l, f.isAligned = false := by
      intro l hl f hf
      by_contra hf2
      exact hno ⟨l, hl, f, hf, by simpa using hf2⟩
    exact absurd (hfalse.mpr this) (by simp)
  | false =>
    simp only [reduceCtorEq, false_iff, not_exists, not_and]
    intro l hl f hf
    simp [hfalse.mp rfl l hl f hf]

/-- Witness of C8: a pair whose first read has an aligned fragment next to a
sentinel one and whose second read has no fragment, rescue disabled. -/
theorem buildTemplate_false_iff_witness :
    (([[sampleNoMatchFragment, sampleFragment], []] : List (List FragmentMetadata)).length = 1 ∨
      ([[sampleNoMatchFragment, sampleFragment], []] : List (List FragmentMetadata)).length = 2) ∧
    ∃ ret bamTemplate,
      buildTemplate false (fun _ _ => true) (fun _ => none)
          [[sampleNoMatchFragment, sampleFragment], []] = some (ret, bamTemplate) ∧
      (ret = false ↔
        ∀ l ∈ [[sampleNoMatchFragment, sampleFragment], []], ∀ f ∈ l, f.isAligned = false) ∧
      (ret = true ↔
        ∃ l ∈ [[sampleNoMatchFragment, sampleFragment], []], ∃ f ∈ l, f.isAligned = true) :=
  ⟨by decide, buildTemplate_false_iff false (fun _ _ => true) (fun _ => none)
    [[sampleNoMatchFragment, sampleFragment], []] (by decide)⟩

end TemplateBuilder

/-! ## Gap comparison, ranges and the deletion end -/

namespace Gap

/-- C11: `comparePositionAndLength` is true exactly when the positions and the
lengths are equal; the priorities never affect it, and it is reflexive,
symmetric and transitive. -/
theorem comparePositionAndLength_equivalence (a b c : Gap) (p q : Nat) :
    (comparePositionAndLength a b = true ↔ a.pos_ = b.pos_ ∧ a.length_ = b.length_) ∧
    comparePositionAndLength (Gap.mk a.pos_ a.length_ p) (Gap.mk b.pos_ b.length_ q) =
      comparePositionAndLength a b ∧
    comparePositionAndLength a a = true ∧
    comparePositionAndLength a b = comparePositionAndLength b a ∧
    (comparePositionAndLength a b = true → comparePositionAndLength b c = true →
      comparePositionAndLength a c = true) := by
  refine ⟨?_, rfl, ?_, ?_, ?_⟩
  · simp [comparePositionAndLength]
  · simp [comparePositionAndLength]
  · simp only [comparePositionAndLength, eq_comm]
  · simp only [comparePositionAndLength, Bool.and_eq_true, decide_eq_true_eq]
    rintro ⟨h1, h2⟩ ⟨h3, h4⟩
    exact ⟨h1.trans h3, h2.trans h4⟩

/-- Witness of C11: two sample gaps that differ in priority only. -/
theorem comparePositionAndLength_equivalence_witness :
    comparePositionAndLength (Gap.mk samplePos 5 0) (Gap.mk samplePos 5 7) = true ∧
    (comparePositionAndLength (Gap.mk samplePos 5 0) (Gap.mk samplePos 5 7) = true ↔
      (Gap.mk samplePos 5 0).pos_ = (Gap.mk samplePos 5 7).pos_ ∧
        (Gap.mk samplePos 5 0).length_ = (Gap.mk samplePos 5 7).length_) :=
  ⟨by decide, (comparePositionAndLength_equivalence (Gap.mk samplePos 5 0)
    (Gap.mk samplePos 5 7) (Gap.mk samplePos 5 7) 0 0).1⟩

/-- C13: `getDeletionEndPos()` fails its assertion exactly when the gap is not a
deletion, that is when `length_ <= 0`; for a gap with `length_ > 0` it succeeds
and returns `pos_ + length_`. -/
theorem getDeletionEndPos_assertion (g : Gap) :
    ((∃ message, g.getDeletionEndPos = Except.error (Failure.assertion message)) ↔
      g.isDeletion = false) ∧
    (g.isDeletion = false ↔ g.length_ ≤ 0) ∧
    (0 < g.length_ → g.length_ ≤ INT_MAX →
      g.getDeletionEndPos = Except.ok (g.pos_.shift g.length_) ∧
      g.pos_.shift g.length_ =
        ReferencePosition.mk g.pos_.contigId (g.pos_.position + g.length_.toNat)) := by
  refine ⟨?_, ?_, ?_⟩
  · unfold getDeletionEndPos
    cases hd : g.isDeletion
    · simp
    · cases stdAbs g.length_ <;> simp
  · simp [isDeletion]
  · intro hpos hmax
    have hd : g.isDeletion = true := by simp [isDeletion, hpos]
    have hmin : INT_MIN < g.length_ := by unfold INT_MIN; omega
    have habs : ((g.length_.natAbs : Nat) : Int) = g.length_ := by omega
    constructor
    · simp only [getDeletionEndPos, hd, if_true, stdAbs, hmin, hmax, and_self, habs]
    · simp only [ReferencePosition.shift, ReferencePosition.mk.injEq, true_and]
      omega

/-- Witness of C13: a deletion of 5 bases at position 100 ends at position 105. -/
theorem getDeletionEndPos_assertion_witness :
    ((0 : Int) < (Gap.mk samplePos 5 0).length_ ∧ (Gap.mk samplePos 5 0).length_ ≤ INT_MAX) ∧
    (Gap.mk samplePos 5 0).getDeletionEndPos = Except.ok (ReferencePosition.mk 0 105) :=
  ⟨by decide,
    ((getDeletionEndPos_assertion (Gap.mk samplePos 5 0)).2.2 (by decide) (by decide)).1⟩

end Gap

namespace GapsRange

/-- C12: `empty()` is true exactly when `first == second`; for a range with
`first` at or before `second` over one sequence of fewer than 2^32 gaps,
`size()` is the number of gaps from `first` up to but excluding `second`, and
`empty()` holds exactly when `size()` is 0. -/
theorem empty_iff_size (r0 r : GapsRange) (hsame : r.first.gaps = r.second.gaps)
    (hle : r.first.offset ≤ r.second.offset)
    (hin : r.second.offset ≤ r.first.gaps.length) (hlen : r.first.gaps.length < 2 ^ 32) :
    (r0.empty = true ↔ r0.first = r0.second) ∧
    r.size = r.elements.length ∧
    r.size = r.second.offset - r.first.offset ∧
    (r.empty = true ↔ r.size = 0) := by
  have hsize : r.size = r.second.offset - r.first.offset := by
    unfold size
    omega
  refine ⟨?_, ?_, hsize, ?_⟩
  · simp [empty, eq_comm]
  · rw [hsize]
    simp only [elements, List.length_drop, List.length_take]
    omega
  · rw [hsize]
    simp only [empty, decide_eq_true_eq]
    constructor
    · intro h
      rw [h]
      omega
    · intro h
      cases hf : r.first with
      | mk g1 o1 =>
        cases hs : r.second with
        | mk g2 o2 =>
          rw [hf, hs] at hsame hle h
          simp only at hsame hle h
          simp only [GapsIterator.mk.injEq]
          exact ⟨hsame.symm, by omega⟩

/-- Witness of C12: the range of the first two of three sample gaps. -/
theorem empty_iff_size_witness :
    (sampleGapsRange.first.gaps = sampleGapsRange.second.gaps ∧
      sampleGapsRange.first.offset ≤ sampleGapsRange.second.offset ∧
      sampleGapsRange.second.offset ≤ sampleGapsRange.first.gaps.length) ∧
    sampleGapsRange.size = sampleGapsRange.elements.length ∧ sampleGapsRange.size = 2 :=
  ⟨by decide,
    (empty_iff_size sampleGapsRange sampleGapsRange (by decide) (by decide) (by decide)
      (by decide)).2.1,
    by decide⟩

end GapsRange

/-! ## Clipped length and unclipped position of an `Index` -/

namespace Index

theorem getBeginClippedLength_of_first (decode : Nat → Nat × Cigar.OpCode) (i : Index)
    (first : Nat) (hne : i.cigarBegin_ ≠ i.cigarEnd_)
    (hfirst : i.cigarBegin_.buffer[i.cigarBegin_.offset]? = some first) :
    i.getBeginClippedLength decode =
      Except.ok (if (decode first).2 = Cigar.OpCode.SOFT_CLIP then (decode first).1 else 0) := by
  unfold getBeginClippedLength CigarIterator.deref
  rw [if_pos hne, hfirst]
  by_cases h : (decode first).2 = Cigar.OpCode.SOFT_CLIP
  · simp [h, bind, Except.bind, pure, Except.pure]
  · have h2 : ¬ Cigar.OpCode.SOFT_CLIP = (decode first).2 := fun e => h e.symm
    simp [h, h2, bind, Except.bind, pure, Except.pure]

theorem getUnclippedPosition_eq (decode : Nat → Nat × Cigar.OpCode) (i : Index) :
    i.getUnclippedPosition decode =
      match i.getBeginClippedLength decode with
      | Except.ok clipped => Except.ok (i.pos_.shift (-(clipped : Int)))
      | Except.error e => Except.error e := by
  unfold getUnclippedPosition
  cases i.getBeginClippedLength decode <;> rfl

/-- C14: `getBeginClippedLength()` fails its assertion exactly when the CIGAR
view is empty (`cigarBegin_ == cigarEnd_`); for a non-empty view inside its
array it succeeds; and `getUnclippedPosition()` fails on exactly the same
indices, with the same failure. -/
theorem getBeginClippedLength_assertion (decode : Nat → Nat × Cigar.OpCode) (i : Index) :
    ((∃ message, i.getBeginClippedLength decode = Except.error (Failure.assertion message)) ↔
      i.cigarBegin_ = i.cigarEnd_) ∧
    (i.cigarBegin_.buffer = i.cigarEnd_.buffer →
      i.cigarBegin_.offset < i.cigarEnd_.offset →
      i.cigarEnd_.offset ≤ i.cigarEnd_.buffer.length →
      ∃ clipped, i.getBeginClippedLength decode = Except.ok clipped) ∧
    (∀ e, i.getUnclippedPosition decode = Except.error e ↔
      i.getBeginClippedLength decode = Except.error e) := by
  refine ⟨?_, ?_, ?_⟩
  · by_cases h : i.cigarBegin_ = i.cigarEnd_
    · simp [getBeginClippedLength, h]
    · simp only [h, iff_false, not_exists]
      intro message
      cases hd : i.cigarBegin_.buffer[i.cigarBegin_.offset]? with
      | some first =>
        rw [getBeginClippedLength_of_first decode i first h hd]
        simp
      | none =>
        simp [getBeginClippedLength, CigarIterator.deref, h, hd, bind, Except.bind]
  · intro hbuf hlt hend
    have hne : i.cigarBegin_ ≠ i.cigarEnd_ := by
      intro e
      rw [e] at hlt
      exact lt_irrefl _ hlt
    have hin : i.cigarBegin_.offset < i.cigarBegin_.buffer.length := by
      rw [hbuf]
      omega
    exact ⟨_, getBeginClippedLength_of_first decode i _ hne
      (List.getElem?_eq_getElem hin)⟩
  · intro e
    rw [getUnclippedPosition_eq]
    cases i.getBeginClippedLength decode <;> simp

/-- Witness of C14: the sample index with CIGAR `5S100M3S` has 5 clipped bases. -/
theorem getBeginClippedLength_assertion_witness :
    (sampleClippedIndex.cigarBegin_.buffer = sampleClippedIndex.cigarEnd_.buffer ∧
      sampleClippedIndex.cigarBegin_.offset < sampleClippedIndex.cigarEnd_.offset ∧
      sampleClippedIndex.cigarEnd_.offset ≤ sampleClippedIndex.cigarEnd_.buffer.length) ∧
    (∃ clipped, sampleClippedIndex.getBeginClippedLength sampleDecode = Except.ok clipped) ∧
    sampleClippedIndex.getBeginClippedLength sampleDecode = Except.ok 5 :=
  ⟨by decide,
    (getBeginClippedLength_assertion sampleDecode sampleClippedIndex).2.1 (by decide)
      (by decide) (by decide),
    rfl⟩

/-- C15: for an index with a non-empty CIGAR whose first operation is `first`,
`getUnclippedPosition()` is `pos_ - n` on the contig of `pos_`, where `n` is the
length of `first` when it is a soft clip and 0 otherwise; it is `pos_` when the
alignment does not begin with a soft clip, and two indices with the same `pos_`
and the same first operation have the same unclipped position. -/
theorem getUnclippedPosition_first_operation (decode : Nat → Nat × Cigar.OpCode)
    (i j : Index) (first : Nat) (hne : i.cigarBegin_ ≠ i.cigarEnd_)
    (hfirst : i.cigarBegin_.buffer[i.cigarBegin_.offset]? = some first) :
    i.getUnclippedPosition decode =
      Except.ok (i.pos_.shift
        (-((if (decode first).2 = Cigar.OpCode.SOFT_CLIP then (decode first).1 else 0 : Nat)
          : Int))) ∧
    (∀ p, i.getUnclippedPosition decode = Except.ok p →
      p.contigId = i.pos_.contigId ∧
      ((decode first).2 = Cigar.OpCode.SOFT_CLIP → (decode first).1 ≤ i.pos_.position →
        p.position + (decode first).1 = i.pos_.position)) ∧
    ((decode first).2 ≠ Cigar.OpCode.SOFT_CLIP →
      i.getUnclippedPosition decode = Except.ok i.pos_) ∧
    (j.pos_ = i.pos_ → j.cigarBegin_ ≠ j.cigarEnd_ →
      j.cigarBegin_.buffer[j.cigarBegin_.offset]? = some first →
      j.getUnclippedPosition decode = i.getUnclippedPosition decode) := by
  have hi : i.getUnclippedPosition decode =
      Except.ok (i.pos_.shift
        (-((if (decode first).2 = Cigar.OpCode.SOFT_CLIP then (decode first).1 else 0 : Nat)
          : Int))) := by
    rw [getUnclippedPosition_eq, getBeginClippedLength_of_first decode i first hne hfirst]
  refine ⟨hi, ?_, ?_, ?_⟩
  · intro p hp
    rw [hi] at hp
    injection hp with hp
    subst hp
    refine ⟨rfl, ?_⟩
    intro hs hle
    simp only [hs, if_true, ReferencePosition.shift]
    omega
  · intro hs
    rw [hi]
    simp only [hs, if_false, ReferencePosition.shift]
    cases hp : i.pos_
    simp
  · intro hpos hjne hjfirst
    rw [hi, getUnclippedPosition_eq, getBeginClippedLength_of_first decode j first hjne hjfirst,
      hpos]

/-- Witness of C15: the sample index at position 100 with CIGAR `5S100M3S` has
unclipped position 95. -/
theorem getUnclippedPosition_first_operation_witness :
    (sampleClippedIndex.cigarBegin_ ≠ sampleClippedIndex.cigarEnd_ ∧
      sampleClippedIndex.cigarBegin_.buffer[sampleClippedIndex.cigarBegin_.offset]? =
        some 0x54) ∧
    sampleClippedIndex.getUnclippedPosition sampleDecode =
      Except.ok (sampleClippedIndex.pos_.shift
        (-((if (sampleDecode 0x54).2 = Cigar.OpCode.SOFT_CLIP then (sampleDecode 0x54).1
          else 0 : Nat) : Int))) ∧
    sampleClippedIndex.getUnclippedPosition sampleDecode =
      Except.ok (ReferencePosition.mk 0 95) :=
  ⟨by decide,
    (getUnclippedPosition_first_operation sampleDecode sampleClippedIndex sampleClippedIndex
      0x54 (by decide) (by decide)).1,
    rfl⟩

end Index

/-! ## The loop of `buildFragments` -/

namespace TemplateBuilder

open FragmentBuilder

theorem oracleCalls_map_fst {σ : Type}
    (build : σ → List Nat → ReadMetadata → List FragmentMetadata → BuildOutcome σ)
    (reads : List ReadMetadata) :
    ∀ (builder : σ) (cigarBuffer : List Nat),
      (oracleCalls build reads builder cigarBuffer).map (fun c => c.1) = reads := by
  induction reads with
  | nil => intro _ _; rfl
  | cons r rest ih =>
    intro builder cigarBuffer
    simp [oracleCalls, ih]

theorem lastOutputFor_cons {σ : Type} (i : Nat) (r : ReadMetadata) (o : BuildOutcome σ)
    (rest : List (ReadMetadata × BuildOutcome σ)) :
    lastOutputFor i ((r, o) :: rest) =
      match lastOutputFor i rest with
      | some l => some l
      | none => if r.getIndex = i then some o.fragmentList else none := rfl

/-- The loop returns when the read indices are inside `fragments_`, and what it
leaves is what the calls of `oracleCalls` leave. -/
theorem buildFragmentsLoop_spec {σ : Type}
    (combine : AlignmentType → AlignmentType → AlignmentType)
    (build : σ → List Nat → ReadMetadata → List FragmentMetadata → BuildOutcome σ)
    (reads : List ReadMetadata) :
    ∀ (ret : AlignmentType) (st : Buffers σ),
      (∀ r ∈ reads, r.getIndex < st.fragments_.length) →
      ∃ st', buildFragmentsLoop combine build reads ret st =
          some ((oracleCalls build reads st.fragmentBuilder_ st.cigarBuffer_).foldl
            (fun acc c => combine acc c.2.alignmentType) ret, st') ∧
        st'.fragments_.length = st.fragments_.length ∧
        (∀ i, st'.fragments_[i]? =
          match lastOutputFor i
            (oracleCalls build reads st.fragmentBuilder_ st.cigarBuffer_) with
          | some l => some l
          | none => st.fragments_[i]?) ∧
        st'.fragmentBuilder_ =
          ((oracleCalls build reads st.fragmentBuilder_ st.cigarBuffer_).map
            (fun c => c.2.builder)).getLastD st.fragmentBuilder_ ∧
        st'.cigarBuffer_ =
          ((oracleCalls build reads st.fragmentBuilder_ st.cigarBuffer_).map
            (fun c => c.2.cigarBuffer)).getLastD st.cigarBuffer_ := by
  induction reads with
  | nil =>
    intro ret st _
    exact ⟨st, rfl, rfl, fun i => rfl, rfl, rfl⟩
  | cons r rest ih =>
    intro ret st hin
    have hr : r.getIndex < st.fragments_.length := hin r (List.mem_cons_self _ _)
    have hrest : ∀ x ∈ rest, x.getIndex <
        (Buffers.mk (build st.fragmentBuilder_ st.cigarBuffer_ r []).cigarBuffer
          (st.fragments_.set r.getIndex
            (build st.fragmentBuilder_ st.cigarBuffer_ r []).fragmentList)
          (build st.fragmentBuilder_ st.cigarBuffer_ r []).builder).fragments_.length := by
      intro x hx
      simp only [List.length_set]
      exact hin x (List.mem_cons_of_mem _ hx)
    obtain ⟨st', h1, h2, h3, h4, h5⟩ :=
      ih (combine ret (build st.fragmentBuilder_ st.cigarBuffer_ r []).alignmentType) _ hrest
    refine ⟨st', ?_, ?_, ?_, ?_, ?_⟩
    · simp only [buildFragmentsLoop, hr, if_true, h1, oracleCalls, List.foldl_cons]
    · rw [h2, List.length_set]
    · intro i
      rw [h3 i]
      show _ = match lastOutputFor i ((r, build st.fragmentBuilder_ st.cigarBuffer_ r []) ::
          oracleCalls build rest (build st.fragmentBuilder_ st.cigarBuffer_ r []).builder
            (build st.fragmentBuilder_ st.cigarBuffer_ r []).cigarBuffer) with
        | some l => some l
        | none => st.fragments_[i]?
      rw [lastOutputFor_cons]
      cases lastOutputFor i (oracleCalls build rest
          (build st.fragmentBuilder_ st.cigarBuffer_ r []).builder
          (build st.fragmentBuilder_ st.cigarBuffer_ r []).cigarBuffer) with
      | some l => rfl
      | none =>
        by_cases hi : r.getIndex = i
        · subst hi
          simp [List.getElem?_set, hr]
        · simp [List.getElem?_set, hi]
    · rw [h4]
      simp only [oracleCalls, List.map_cons, List.getLastD_cons]
    · rw [h5]
      simp only [oracleCalls, List.map_cons, List.getLastD_cons]

theorem lastOutputFor_isSome {σ : Type} (calls : List (ReadMetadata × BuildOutcome σ))
    (r : ReadMetadata) (hr : r ∈ calls.map (fun c => c.1)) :
    ∃ l, lastOutputFor r.getIndex calls = some l := by
  induction calls with
  | nil => simp at hr
  | cons c cs ih =>
    obtain ⟨x, o⟩ := c
    rw [lastOutputFor_cons]
    cases hl : lastOutputFor r.getIndex cs with
    | some l => exact ⟨l, rfl⟩
    | none =>
      simp only [List.map_cons, List.mem_cons] at hr
      rcases hr with h | h
      · subst h
        exact ⟨o.fragmentList, by simp⟩
      · obtain ⟨l, hl2⟩ := ih h
        rw [hl] at hl2
        cases hl2

theorem lastOutputFor_none {σ : Type} (i : Nat) (calls : List (ReadMetadata × BuildOutcome σ))
    (hno : ∀ r ∈ calls.map (fun c => c.1), r.getIndex ≠ i) :
    lastOutputFor i calls = none := by
  induction calls with
  | nil => rfl
  | cons c cs ih =>
    obtain ⟨x, o⟩ := c
    rw [lastOutputFor_cons, ih (fun r hr => hno r (by simp [hr]))]
    have : x.getIndex ≠ i := hno x (by simp)
    simp [this]

theorem lastOutputFor_of_nodup {σ : Type} (calls : List (ReadMetadata × BuildOutcome σ))
    (hnodup : ((calls.map (fun c => c.1)).map ReadMetadata.getIndex).Nodup)
    (c : ReadMetadata × BuildOutcome σ) (hc : c ∈ calls) :
    lastOutputFor c.1.getIndex calls = some c.2.fragmentList := by
  induction calls with
  | nil => simp at hc
  | cons d ds ih =>
    obtain ⟨x, o⟩ := d
    simp only [List.map_cons, List.nodup_cons, List.mem_map, not_exists, not_and] at hnodup
    rw [lastOutputFor_cons]
    rcases List.mem_cons.mp hc with h | h
    · subst h
      rw [lastOutputFor_none]
      · simp
      · intro r hr hidx
        obtain ⟨e, he, rfl⟩ := List.mem_map.mp hr
        exact hnodup.1 e.1 ⟨e, he, rfl⟩ hidx
    · rw [ih hnodup.2 h]

end TemplateBuilder

namespace TemplateBuilder

open FragmentBuilder

/-- C16: when the read indices are inside `fragments_`, `buildFragments`
returns; the oracle is called once per read of `readMetadataList`, in list
order, each time with the emptied list of that read as output list, which then
is `fragments_[readMetadata.getIndex()]`; the result is the fold of
`combineAlignmentTypes` over the return values of these calls starting from
`Nm`, and it is `Nm` for an empty list. An oracle that produces no fragments is
no exception. -/
theorem buildFragments_folds_oracle {σ : Type}
    (combine : AlignmentType → AlignmentType → AlignmentType)
    (build : σ → List Nat → ReadMetadata → List FragmentMetadata → BuildOutcome σ)
    (reads : List ReadMetadata) (st : Buffers σ)
    (hin : ∀ r ∈ reads, r.getIndex < st.fragments_.length) :
    (∃ st', buildFragments combine build reads st =
        some ((oracleCalls build reads st.fragmentBuilder_ []).foldl
          (fun acc c => combine acc c.2.alignmentType) AlignmentType.Nm, st') ∧
      st'.fragmentBuilder_ =
        ((oracleCalls build reads st.fragmentBuilder_ []).map
          (fun c => c.2.builder)).getLastD st.fragmentBuilder_ ∧
      ∀ r ∈ reads, ∃ l,
        lastOutputFor r.getIndex (oracleCalls build reads st.fragmentBuilder_ []) = some l ∧
        st'.fragments_[r.getIndex]? = some l) ∧
    (oracleCalls build reads st.fragmentBuilder_ []).map (fun c => c.1) = reads ∧
    (∃ st', buildFragments combine build [] st = some (AlignmentType.Nm, st')) := by
  obtain ⟨st', h1, -, h3, h4, -⟩ :=
    buildFragmentsLoop_spec combine build reads AlignmentType.Nm
      (Buffers.mk [] st.fragments_ st.fragmentBuilder_) hin
  refine ⟨⟨st', h1, h4, ?_⟩, oracleCalls_map_fst build reads _ _, ⟨_, rfl⟩⟩
  intro r hr
  obtain ⟨l, hl⟩ := lastOutputFor_isSome (oracleCalls build reads st.fragmentBuilder_ []) r
    (by rw [oracleCalls_map_fst]; exact hr)
  refine ⟨l, hl, ?_⟩
  have := h3 r.getIndex
  simp only at this
  rw [this, hl]

/-- Witness of C16: the two reads of a pair, an oracle that aligns read 0 only. -/
theorem buildFragments_folds_oracle_witness :
    (∀ r ∈ sampleReads, r.getIndex < sampleBuffers.fragments_.length) ∧
    (∃ st', buildFragments sampleCombine sampleBuild sampleReads sampleBuffers =
        some ((oracleCalls sampleBuild sampleReads sampleBuffers.fragmentBuilder_ []).foldl
          (fun acc c => sampleCombine acc c.2.alignmentType) AlignmentType.Nm, st') ∧
      st'.fragmentBuilder_ =
        ((oracleCalls sampleBuild sampleReads sampleBuffers.fragmentBuilder_ []).map
          (fun c => c.2.builder)).getLastD sampleBuffers.fragmentBuilder_ ∧
      ∀ r ∈ sampleReads, ∃ l,
        lastOutputFor r.getIndex
          (oracleCalls sampleBuild sampleReads sampleBuffers.fragmentBuilder_ []) = some l ∧
        st'.fragments_[r.getIndex]? = some l) ∧
    (oracleCalls sampleBuild sampleReads sampleBuffers.fragmentBuilder_ []).foldl
      (fun acc c => sampleCombine acc c.2.alignmentType) AlignmentType.Nm =
        AlignmentType.ungapped :=
  ⟨by decide,
    (buildFragments_folds_oracle sampleCombine sampleBuild sampleReads sampleBuffers
      (by decide)).1,
    by decide⟩

/-- C17: `buildFragments` discards what earlier calls left in the reused
buffers. The first oracle call sees an empty cigar buffer; after the call
`fragments_[i]`, for every read `i` of `readMetadataList`, is the output list
that the oracle filled, from empty, in the call made for that read; and the
lists of read indices that are not in `readMetadataList` are unchanged. -/
theorem buildFragments_reuses_buffers {σ : Type}
    (combine : AlignmentType → AlignmentType → AlignmentType)
    (build : σ → List Nat → ReadMetadata → List FragmentMetadata → BuildOutcome σ)
    (reads : List ReadMetadata) (st : Buffers σ)
    (hin : ∀ r ∈ reads, r.getIndex < st.fragments_.length) :
    ∃ ret st', buildFragments combine build reads st = some (ret, st') ∧
      st'.fragments_.length = st.fragments_.length ∧
      (∀ r ∈ reads, ∃ l,
        lastOutputFor r.getIndex (oracleCalls build reads st.fragmentBuilder_ []) = some l ∧
        st'.fragments_[r.getIndex]? = some l) ∧
      (∀ i, (∀ r ∈ reads, r.getIndex ≠ i) → st'.fragments_[i]? = st.fragments_[i]?) ∧
      ((reads.map ReadMetadata.getIndex).Nodup →
        ∀ c ∈ oracleCalls build reads st.fragmentBuilder_ [],
          st'.fragments_[c.1.getIndex]? = some c.2.fragmentList) ∧
      (oracleCalls build reads st.fragmentBuilder_ []).head? =
        reads.head?.map (fun r => (r, build st.fragmentBuilder_ [] r [])) := by
  obtain ⟨st', h1, h2, h3, -, -⟩ :=
    buildFragmentsLoop_spec combine build reads AlignmentType.Nm
      (Buffers.mk [] st.fragments_ st.fragmentBuilder_) hin
  simp only at h3
  refine ⟨_, st', h1, h2, ?_, ?_, ?_, ?_⟩
  · intro r hr
    obtain ⟨l, hl⟩ := lastOutputFor_isSome (oracleCalls build reads st.fragmentBuilder_ []) r
      (by rw [oracleCalls_map_fst]; exact hr)
    exact ⟨l, hl, by rw [h3 r.getIndex, hl]⟩
  · intro i hno
    rw [h3 i, lastOutputFor_none i _ (by rw [oracleCalls_map_fst]; exact hno)]
  · intro hnodup c hc
    rw [h3 c.1.getIndex, lastOutputFor_of_nodup _ (by rw [oracleCalls_map_fst]; exact hnodup) c hc]
  · cases reads <;> rfl

end TemplateBuilder

/-! ## Arithmetic of two-bit encodings -/

namespace oligo

theorem four_pow_eq (j : Nat) : 4 ^ j = 2 ^ (2 * j) := by
  rw [pow_mul]
  norm_num

theorem four_pow_dvd (bits j : Nat) (h : 2 * j ≤ bits) : 4 ^ j ∣ 2 ^ bits := by
  rw [four_pow_eq]
  exact pow_dvd_pow 2 h

theorem shiftOr_eq (bits x b : Nat) (hb : b < 4) (hbits : 2 ≤ bits) :
    ((x * 4) % 2 ^ bits) ||| (b % 2 ^ bits) = (x * 4) % 2 ^ bits + b := by
  have h4 : (4 : Nat) ∣ 2 ^ bits := by
    have := four_pow_dvd bits 1 (by omega)
    simpa using this
  have hlt : b < 2 ^ bits := lt_of_lt_of_le hb (Nat.le_of_dvd (by positivity) h4)
  rw [Nat.mod_eq_of_lt hlt]
  have hd : 4 ∣ (x * 4) % 2 ^ bits := (Nat.dvd_mod_iff h4).2 (Dvd.intro_left x rfl)
  obtain ⟨y, hy⟩ := hd
  rw [hy]
  have := Nat.mul_add_lt_is_or (i := 2) (b := b) (by simpa using hb) y
  simpa using this.symm

theorem shiftOr_mod (bits x b j : Nat) (hb : b < 4) (hj : 2 * (j + 1) ≤ bits) :
    ((x * 4) % 2 ^ bits + b) % 4 ^ (j + 1) = (x % 4 ^ j) * 4 + b := by
  have hd := four_pow_dvd bits (j + 1) hj
  rw [Nat.add_mod, Nat.mod_mod_of_dvd _ hd, ← Nat.add_mod, pow_succ, Nat.add_mod,
    Nat.mul_mod_mul_right, Nat.mod_eq_of_lt (show b < 4 ^ j * 4 by
      have : 0 < 4 ^ j := by positivity
      omega)]
  apply Nat.mod_eq_of_lt
  have : x % 4 ^ j < 4 ^ j := Nat.mod_lt _ (by positivity)
  omega

theorem encodeKmer_append_singleton (l : List Nat) (b : Nat) :
    encodeKmer (l ++ [b]) = encodeKmer l * 4 + b := by
  simp [encodeKmer, List.foldl_append]

theorem encodeKmer_foldl (t : List Nat) :
    ∀ acc : Nat, t.foldl (fun a b => a * 4 + b) acc = acc * 4 ^ t.length + encodeKmer t := by
  induction t with
  | nil => intro acc; simp [encodeKmer]
  | cons x t ih =>
    intro acc
    simp only [List.foldl_cons, List.length_cons, encodeKmer]
    rw [ih (acc * 4 + x), ih (0 * 4 + x)]
    ring

theorem encodeKmer_cons (x : Nat) (t : List Nat) :
    encodeKmer (x :: t) = x * 4 ^ t.length + encodeKmer t := by
  have := encodeKmer_foldl t (0 * 4 + x)
  simp only [encodeKmer, List.foldl_cons]
  rw [this]
  simp [encodeKmer]

theorem encodeKmer_lt (t : List Nat) (hvalid : ∀ x ∈ t, x < 4) :
    encodeKmer t < 4 ^ t.length := by
  induction t with
  | nil => simp [encodeKmer]
  | cons x t ih =>
    rw [encodeKmer_cons, List.length_cons, pow_succ]
    have h1 := ih (fun y hy => hvalid y (List.mem_cons_of_mem _ hy))
    have h2 : x < 4 := hvalid x (List.mem_cons_self _ _)
    have h3 : x * 4 ^ t.length ≤ 3 * 4 ^ t.length := Nat.mul_le_mul_right _ (by omega)
    omega

theorem encodeKmer_mod_tail (x : Nat) (t : List Nat) (hvalid : ∀ y ∈ t, y < 4) :
    encodeKmer (x :: t) % 4 ^ t.length = encodeKmer t := by
  rw [encodeKmer_cons, Nat.mul_comm, Nat.mul_add_mod]
  exact Nat.mod_eq_of_lt (encodeKmer_lt t hvalid)

end oligo

/-! ## `generateKmer` -/

namespace oligo

theorem generateKmerLoop_isSome (bits : Nat) :
    ∀ (todo kmer : Nat) (rem : List Nat),
      (generateKmerLoop bits todo kmer rem).isSome = true ↔ todo ≤ rem.length := by
  intro todo
  induction todo with
  | zero => intro kmer rem; simp [generateKmerLoop]
  | succ n ih =>
    intro kmer rem
    cases rem with
    | nil => simp [generateKmerLoop]
    | cons b rest =>
      simp only [generateKmerLoop, List.length_cons, Nat.add_le_add_iff_right]
      exact ih _ rest

theorem generateKmerLoop_value (bits : Nat) :
    ∀ (todo kmer : Nat) (rem run : List Nat),
      2 * (run.length + todo) ≤ bits → todo ≤ rem.length →
      (∀ x ∈ rem.take todo, x < 4) → kmer % 4 ^ run.length = encodeKmer run →
      ∃ v, generateKmerLoop bits todo kmer rem = some v ∧
        v % 4 ^ (run.length + todo) = encodeKmer (run ++ rem.take todo) := by
  intro todo
  induction todo with
  | zero =>
    intro kmer rem run _ _ _ hk
    exact ⟨kmer, rfl, by simpa using hk⟩
  | succ n ih =>
    intro kmer rem run hbits hlen hvalid hk
    cases rem with
    | nil => simp at hlen
    | cons b rest =>
      have hb : b < 4 := hvalid b (by simp)
      have hstep : (((kmer * 4) % 2 ^ bits) ||| (b % 2 ^ bits)) % 4 ^ (run ++ [b]).length =
          encodeKmer (run ++ [b]) := by
        rw [shiftOr_eq bits kmer b hb (by omega), List.length_append, List.length_singleton,
          shiftOr_mod bits kmer b run.length hb (by omega), hk, encodeKmer_append_singleton]
      obtain ⟨v, hv1, hv2⟩ := ih (((kmer * 4) % 2 ^ bits) ||| (b % 2 ^ bits)) rest (run ++ [b])
        (by simp only [List.length_append, List.length_singleton]; omega)
        (by simpa using hlen)
        (fun x hx => hvalid x (by simp [hx]))
        hstep
      refine ⟨v, by simpa [generateKmerLoop] using hv1, ?_⟩
      simp only [List.length_append, List.length_singleton] at hv2
      rw [show run.length + (n + 1) = run.length + 1 + n by omega, hv2]
      simp

/-- C19: `generateKmer` returns true exactly when at least `kmerLength` elements
remain; when `2 * kmerLength` is below the width of `T` and the first
`kmerLength` bases are valid, the k-mer written is the encoding of these bases
at two bits per base, first base most significant, whatever the k-mer held on
entry; for `kmerLength = 0` it returns true with k-mer 0. -/
theorem generateKmer_spec (bits : Nat) (overshift : Nat → Nat → Nat)
    (kmerLength kmer : Nat) (remaining : List Nat) :
    ((generateKmer bits overshift kmerLength kmer remaining).1 = true ↔
      kmerLength ≤ remaining.length) ∧
    (2 * kmerLength < bits → bits ≤ 2 ^ 32 → kmerLength ≤ remaining.length →
      (∀ x ∈ remaining.take kmerLength, x < INVALID_OLIGO) →
      generateKmer bits overshift kmerLength kmer remaining =
        (true, some (encodeKmer (remaining.take kmerLength)))) ∧
    generateKmer bits overshift 0 kmer remaining = (true, some 0) := by
  refine ⟨?_, ?_, ?_⟩
  · rw [← generateKmerLoop_isSome bits kmerLength kmer remaining]
    unfold generateKmer
    cases generateKmerLoop bits kmerLength kmer remaining <;> simp
  · intro hbits h32 hlen hvalid
    obtain ⟨v, hv1, hv2⟩ := generateKmerLoop_value bits kmerLength kmer remaining []
      (by simp only [List.length_nil]; omega) hlen hvalid
      (by simp [encodeKmer, Nat.mod_one])
    simp only [List.length_nil, Nat.zero_add, List.nil_append] at hv2
    have hlt : 2 ^ (2 * kmerLength) < 2 ^ bits := Nat.pow_lt_pow_right (by omega) hbits
    have hpos : 0 < 2 ^ (2 * kmerLength) := by positivity
    have hmask : (shl bits overshift 1 ((2 * kmerLength) % 2 ^ 32) + (2 ^ bits - 1)) % 2 ^ bits =
        2 ^ (2 * kmerLength) - 1 := by
      rw [Nat.mod_eq_of_lt (show 2 * kmerLength < 2 ^ 32 by omega)]
      simp only [shl, hbits, if_true, Nat.one_mul, Nat.mod_eq_of_lt hlt]
      rw [show 2 ^ (2 * kmerLength) + (2 ^ bits - 1) =
        (2 ^ (2 * kmerLength) - 1) + 2 ^ bits by omega, Nat.add_mod_right]
      exact Nat.mod_eq_of_lt (by omega)
    simp only [generateKmer, hv1, hmask, Nat.and_pow_two_sub_one_eq_mod]
    rw [← four_pow_eq, hv2]
  · have hmask : (shl bits overshift 1 ((2 * 0) % 2 ^ 32) + (2 ^ bits - 1)) % 2 ^ bits = 0 := by
      rcases Nat.eq_zero_or_pos bits with h | h
      · subst h
        simp [Nat.mod_one]
      · have h1 : 1 < 2 ^ bits := Nat.one_lt_two_pow (by omega)
        simp only [shl, Nat.mul_zero, Nat.zero_mod, h, if_true, pow_zero, Nat.mul_one,
          Nat.mod_eq_of_lt h1]
        rw [show 1 + (2 ^ bits - 1) = 2 ^ bits by omega, Nat.mod_self]
    simp only [generateKmer, generateKmerLoop, hmask, Nat.and_zero]

/-- Witness of C19: three valid bases out of four, from a k-mer that is not 0. -/
theorem generateKmer_spec_witness :
    ((2 * 3 < 64 ∧ 64 ≤ 2 ^ 32 ∧ 3 ≤ [1, 2, 3, 0].length) ∧
      ∀ x ∈ [1, 2, 3, 0].take 3, x < INVALID_OLIGO) ∧
    generateKmer 64 sampleOvershift 3 12345 [1, 2, 3, 0] =
      (true, some (encodeKmer ([1, 2, 3, 0].take 3))) ∧
    encodeKmer ([1, 2, 3, 0].take 3) = 27 :=
  ⟨by decide,
    (generateKmer_spec 64 sampleOvershift 3 12345 [1, 2, 3, 0]).2.1 (by decide) (by decide)
      (by decide) (by decide),
    by decide⟩

end oligo

/-! ## The expected k-mers of a sequence -/

namespace oligo

theorem expectedKmers_cons (k p b : Nat) (rest : List Nat) :
    expectedKmers k p (b :: rest) =
      (if k ≤ (b :: rest).length ∧ ∀ x ∈ (b :: rest).take k, x < INVALID_OLIGO then
        [(encodeKmer ((b :: rest).take k), p)]
      else []) ++ expectedKmers k (p + 1) rest := rfl

theorem expectedKmers_short (k : Nat) (l : List Nat) :
    ∀ p : Nat, l.length < k → expectedKmers k p l = [] := by
  induction l with
  | nil => intro p _; rfl
  | cons b rest ih =>
    intro p h
    have h1 : ¬ k ≤ (b :: rest).length := by omega
    rw [expectedKmers_cons, if_neg (fun hc => h1 hc.1), ih (p + 1) (by
      simp only [List.length_cons] at h; omega)]
    rfl

theorem expectedKmers_skip (k b : Nat) (rest : List Nat) (hb : ¬ b < INVALID_OLIGO)
    (run : List Nat) :
    ∀ p : Nat, run.length < k →
      expectedKmers k p (run ++ b :: rest) = expectedKmers k (p + run.length + 1) rest := by
  induction run with
  | nil =>
    intro p hk
    have hmem : b ∈ (b :: rest).take k := by
      cases k with
      | zero => simp at hk
      | succ n => simp
    rw [List.nil_append, expectedKmers_cons, if_neg (fun hc => hb (hc.2 b hmem))]
    rfl
  | cons x run ih =>
    intro p hk
    simp only [List.length_cons] at hk
    have hmem : b ∈ (x :: (run ++ b :: rest)).take k := by
      have : (x :: (run ++ b :: rest)).take k =
          (x :: run).take k ++ (b :: rest).take (k - (x :: run).length) := by
        rw [← List.cons_append, List.take_append_eq_append_take]
      rw [this]
      apply List.mem_append_right
      obtain ⟨n, hn⟩ : ∃ n, k - (x :: run).length = n + 1 :=
        ⟨k - (x :: run).length - 1, by simp only [List.length_cons]; omega⟩
      rw [hn]
      simp
    rw [List.cons_append, expectedKmers_cons, if_neg (fun hc => hb (hc.2 b hmem)),
      List.nil_append, ih (p + 1) (by omega)]
    congr 1
    simp only [List.length_cons]
    omega

theorem expectedKmers_ready (k p x b : Nat) (run rest : List Nat)
    (hk : (x :: run).length + 1 = k) (hrun : ∀ y ∈ x :: run, y < INVALID_OLIGO)
    (hb : b < INVALID_OLIGO) :
    expectedKmers k p ((x :: run) ++ b :: rest) =
      (encodeKmer ((x :: run) ++ [b]), p) ::
        expectedKmers k (p + 1) ((run ++ [b]) ++ rest) := by
  have htake : (x :: (run ++ b :: rest)).take k = (x :: run) ++ [b] := by
    have h1 : x :: (run ++ b :: rest) = ((x :: run) ++ [b]) ++ rest := by simp
    rw [h1, List.take_left' (by simp only [List.length_append, List.length_singleton]; omega)]
  have hcond : k ≤ (x :: (run ++ b :: rest)).length ∧
      ∀ y ∈ (x :: (run ++ b :: rest)).take k, y < INVALID_OLIGO := by
    constructor
    · simp only [List.length_cons, List.length_append] at hk ⊢
      omega
    · rw [htake]
      intro y hy
      rcases List.mem_append.mp hy with h | h
      · exact hrun y h
      · rw [List.mem_singleton.mp h]
        exact hb
  rw [List.cons_append, expectedKmers_cons, if_pos hcond, htake]
  simp

end oligo

/-! ## The generator reads the expected k-mers -/

namespace oligo

namespace KmerGenerator

theorem initializeLoop_spec (k bits : Nat) (hbits : 2 * k ≤ bits) (rem : List Nat) :
    ∀ (current kmer len p : Nat) (run : List Nat),
      run.length = len → len + 1 ≤ k → (∀ x ∈ run, x < INVALID_OLIGO) →
      kmer % 4 ^ len = encodeKmer run → current = p + len →
      ∃ (p' : Nat) (run' : List Nat),
        (initializeLoop k bits rem current kmer len).1 = p' + run'.length ∧
        (∀ x ∈ run', x < INVALID_OLIGO) ∧
        (initializeLoop k bits rem current kmer len).2.2 % 4 ^ run'.length =
          encodeKmer run' ∧
        run'.length + 1 ≤ k ∧
        ((initializeLoop k bits rem current kmer len).2.1 ≠ [] → run'.length + 1 = k) ∧
        expectedKmers k p' (run' ++ (initializeLoop k bits rem current kmer len).2.1) =
          expectedKmers k p (run ++ rem) ∧
        (initializeLoop k bits rem current kmer len).2.1.length ≤ rem.length := by
  induction rem with
  | nil =>
    intro current kmer len p run hlen hk hvalid hkmer hcur
    refine ⟨p, run, ?_, hvalid, ?_, ?_, ?_, rfl, le_refl _⟩
    · simp [initializeLoop, hcur, hlen]
    · simpa [initializeLoop, hlen] using hkmer
    · omega
    · intro h
      exact absurd rfl h
  | cons b rest ih =>
    intro current kmer len p run hlen hk hvalid hkmer hcur
    by_cases h1 : len + 1 < k
    · by_cases h2 : INVALID_OLIGO > b
      · have hb : b < 4 := h2
        have hstep : (((kmer * 4) % 2 ^ bits) ||| (b % 2 ^ bits)) % 4 ^ (len + 1) =
            encodeKmer (run ++ [b]) := by
          rw [shiftOr_eq bits kmer b hb (by omega),
            shiftOr_mod bits kmer b len hb (by omega), hkmer, encodeKmer_append_singleton]
        obtain ⟨p', run', g1, g2, g3, g4, g5, g6, g7⟩ :=
          ih (current + 1) (((kmer * 4) % 2 ^ bits) ||| (b % 2 ^ bits)) (len + 1) p
            (run ++ [b]) (by simp [hlen]) (by omega)
            (fun x hx => by
              rcases List.mem_append.mp hx with h | h
              · exact hvalid x h
              · rw [List.mem_singleton.mp h]; exact h2)
            hstep (by omega)
        refine ⟨p', run', ?_, g2, ?_, g4, ?_, ?_, ?_⟩
        · simpa [initializeLoop, h1, h2] using g1
        · simpa [initializeLoop, h1, h2] using g3
        · simpa [initializeLoop, h1, h2] using g5
        · simp only [initializeLoop, h1, h2, if_true]
          rw [g6, List.append_assoc]
          rfl
        · simp only [initializeLoop, h1, h2, if_true, List.length_cons]
          omega
      · obtain ⟨p', run', g1, g2, g3, g4, g5, g6, g7⟩ :=
          ih (current + 1) 0 0 (current + 1) [] rfl (by omega) (by simp)
            (by simp [encodeKmer]) rfl
        refine ⟨p', run', ?_, g2, ?_, g4, ?_, ?_, ?_⟩
        · simpa [initializeLoop, h1, h2] using g1
        · simpa [initializeLoop, h1, h2] using g3
        · simpa [initializeLoop, h1, h2] using g5
        · simp only [initializeLoop, h1, h2, if_true, if_false]
          rw [g6, List.nil_append,
            expectedKmers_skip k b rest (by simpa using h2) run p (by omega)]
          congr 1
          omega
        · simp only [initializeLoop, h1, h2, if_true, if_false, List.length_cons]
          omega
    · refine ⟨p, run, ?_, hvalid, ?_, ?_, ?_, ?_, ?_⟩
      · simp [initializeLoop, h1, hcur, hlen]
      · simpa [initializeLoop, h1, hlen] using hkmer
      · omega
      · intro _
        omega
      · simp [initializeLoop, h1]
      · simp [initializeLoop, h1]

end KmerGenerator

end oligo

namespace oligo

namespace KmerGenerator

theorem atInvalid_cons (c e m km b : Nat) (rest : List Nat) :
    (KmerGenerator.mk c (b :: rest) e m km).atInvalid = decide (INVALID_OLIGO ≤ b) := rfl

/-- From a ready generator with enough fuel the loop of `next` ends, at a ready
generator that is at the end of the sequence or at a valid base, with the same
k-mers still to come. -/
theorem skipInvalid_spec (k bits : Nat) (hk : 2 ≤ k) (hbits : 2 * k ≤ bits) (fuel : Nat) :
    ∀ (g : KmerGenerator) (p : Nat) (run : List Nat),
      g.Ready k p run → g.remaining.length ≤ fuel →
      ∃ (g' : KmerGenerator) (p' : Nat) (run' : List Nat),
        skipInvalid k bits fuel g = some g' ∧ g'.Ready k p' run' ∧ g'.atInvalid = false ∧
        expectedKmers k p' (run' ++ g'.remaining) = expectedKmers k p (run ++ g.remaining) ∧
        g'.remaining.length ≤ g.remaining.length ∧ g'.end_ = g.end_ := by
  induction fuel with
  | zero =>
    intro g p run hready hfuel
    have hnil : g.remaining = [] := List.length_eq_zero.mp (Nat.le_zero.mp hfuel)
    have hat : g.atInvalid = false := by simp [atInvalid, hnil]
    exact ⟨g, p, run, by simp [skipInvalid, hat], hready, hat, rfl, le_refl _, rfl⟩
  | succ f ih =>
    intro g p run hready hfuel
    cases hat : g.atInvalid with
    | false =>
      exact ⟨g, p, run, by simp [skipInvalid, hat], hready, hat, rfl, le_refl _, rfl⟩
    | true =>
      obtain ⟨c, rem, e, m, km⟩ := g
      cases rem with
      | nil => simp [atInvalid] at hat
      | cons b rest =>
        have hb : ¬ b < INVALID_OLIGO := by
          rw [atInvalid_cons] at hat
          simpa using hat
        obtain ⟨h1, h2, h3, h4, h5, h6⟩ := hready
        simp only at h1 h3 h5 h6
        have hlen : run.length + 1 = k := h5 (by simp)
        have hloop : initializeLoop k bits (b :: rest) c km 0 =
            initializeLoop k bits rest (c + 1) 0 0 := by
          have hk1 : 0 + 1 < k := by omega
          have hb2 : ¬ INVALID_OLIGO > b := hb
          simp only [initializeLoop, hk1, hb2, if_true, if_false]
        obtain ⟨p', run', g1, g2, g3, g4, g5, g6, g7⟩ :=
          initializeLoop_spec k bits hbits rest (c + 1) 0 0 (c + 1) [] rfl (by omega)
            (by simp) (by simp [encodeKmer]) rfl
        have hready' : (initializeKmer k bits (KmerGenerator.mk c (b :: rest) e m km)).Ready
            k p' run' := by
          simp only [Ready, initializeKmer, hloop]
          exact ⟨g1, g2, g3, g4, g5, h6⟩
        obtain ⟨g'', p'', run'', r1, r2, r3, r4, r5, r6⟩ :=
          ih (initializeKmer k bits (KmerGenerator.mk c (b :: rest) e m km)) p' run' hready'
            (by
              simp only [initializeKmer, hloop]
              simp only [List.length_cons] at hfuel
              omega)
        refine ⟨g'', p'', run'', ?_, r2, r3, ?_, ?_, ?_⟩
        · simp only [skipInvalid, hat, if_true]
          exact r1
        · rw [r4]
          simp only [initializeKmer, hloop]
          rw [g6, List.nil_append, expectedKmers_skip k b rest hb run p (by omega)]
          congr 1
          omega
        · simp only [initializeKmer, hloop] at r5
          simp only [List.length_cons]
          omega
        · rw [r6]
          rfl

end KmerGenerator

end oligo

namespace oligo

namespace KmerGenerator

/-- One call of `next` on a ready generator with enough fuel returns the first of
the k-mers still to come, if any, and leaves a ready generator for the rest. -/
theorem next_spec (k bits : Nat) (hk : 2 ≤ k) (hbits : 2 * k ≤ bits) (fuel : Nat)
    (g : KmerGenerator) (p : Nat) (run : List Nat)
    (hready : g.Ready k p run) (hfuel : g.remaining.length ≤ fuel) :
    ∃ (g' : KmerGenerator) (p' : Nat) (run' : List Nat),
      next k bits fuel g = some (g', (expectedKmers k p (run ++ g.remaining)).head?) ∧
      g'.Ready k p' run' ∧
      expectedKmers k p' (run' ++ g'.remaining) =
        (expectedKmers k p (run ++ g.remaining)).tail ∧
      g'.remaining.length ≤ g.remaining.length ∧ g'.end_ = g.end_ := by
  obtain ⟨g1, p1, run1, s1, s2, s3, s4, s5, s6⟩ :=
    skipInvalid_spec k bits hk hbits fuel g p run hready hfuel
  rw [← s4]
  obtain ⟨c, rem, e, m, km⟩ := g1
  obtain ⟨h1, h2, h3, h4, h5, h6⟩ := s2
  simp only at h1 h3 h5 h6 s5 s6
  cases rem with
  | nil =>
    have hexp : expectedKmers k p1 (run1 ++ []) = [] :=
      expectedKmers_short k _ p1 (by simp only [List.append_nil]; omega)
    refine ⟨KmerGenerator.mk c [] e m km, p1, run1, ?_, ⟨h1, h2, h3, h4, h5, h6⟩, ?_, s5, s6⟩
    · simp only [next, s1, hexp, List.head?_nil]
    · simp only [hexp, List.tail_nil]
  | cons b rest =>
    have hb : b < INVALID_OLIGO := by
      rw [atInvalid_cons] at s3
      simpa using s3
    have hb4 : b < 4 := hb
    have hlen : run1.length + 1 = k := h5 (by simp)
    cases run1 with
    | nil =>
      simp only [List.length_nil] at hlen
      omega
    | cons x t =>
      have hexp := expectedKmers_ready k p1 x b t rest hlen h2 hb
      have hkmer : (((km * 4) % 2 ^ bits) ||| (b % 2 ^ bits)) &&& m =
          encodeKmer ((x :: t) ++ [b]) := by
        rw [h6, four_pow_eq, Nat.and_pow_two_sub_one_eq_mod, ← four_pow_eq,
          shiftOr_eq bits km b hb4 (by omega), ← hlen,
          shiftOr_mod bits km b (x :: t).length hb4 (by omega), h3,
          encodeKmer_append_singleton]
      have hvalid' : ∀ y ∈ t ++ [b], y < INVALID_OLIGO := by
        intro y hy
        rcases List.mem_append.mp hy with h | h
        · exact h2 y (List.mem_cons_of_mem _ h)
        · rw [List.mem_singleton.mp h]
          exact hb
      refine ⟨KmerGenerator.mk (c + 1) rest e m
          ((((km * 4) % 2 ^ bits) ||| (b % 2 ^ bits)) &&& m), p1 + 1, t ++ [b], ?_, ?_, ?_, ?_,
        s6⟩
      · simp only [next, s1, hexp, List.head?_cons, hkmer]
        have hpos : c + 1 - k = p1 := by
          simp only [List.length_cons] at h1 hlen
          omega
        rw [hpos]
      · refine ⟨?_, hvalid', ?_, ?_, ?_, h6⟩
        · simp only [List.length_cons, List.length_append, List.length_nil] at h1 ⊢
          omega
        · simp only [hkmer, List.cons_append]
          have := encodeKmer_mod_tail x (t ++ [b]) hvalid'
          exact this
        · simp only [List.length_cons, List.length_append, List.length_nil] at hlen ⊢
          omega
        · intro _
          simp only [List.length_cons, List.length_append, List.length_nil] at hlen ⊢
          omega
      · rw [hexp, List.tail_cons]
      · simp only [List.length_cons] at s5 ⊢
        omega

theorem range_map_getElem?_cons (l : List (Nat × Nat)) (n : Nat) :
    (List.range (n + 1)).map (fun i => l[i]?) =
      l.head? :: (List.range n).map (fun i => l.tail[i]?) := by
  rw [List.range_succ_eq_map, List.map_cons, List.map_map]
  congr 1
  · cases l <;> simp
  · apply List.map_congr_left
    intro i _
    cases l <;> simp

/-- Successive calls of `next` on a ready generator return the k-mers still to
come, one per call and in order, then false. -/
theorem calls_spec (k bits : Nat) (hk : 2 ≤ k) (hbits : 2 * k ≤ bits) (fuel n : Nat) :
    ∀ (g : KmerGenerator) (p : Nat) (run : List Nat),
      g.Ready k p run → g.remaining.length ≤ fuel →
      calls k bits fuel n g =
        some ((List.range n).map (fun i => (expectedKmers k p (run ++ g.remaining))[i]?)) := by
  induction n with
  | zero =>
    intro g p run _ _
    rfl
  | succ n ih =>
    intro g p run hready hfuel
    obtain ⟨g', p', run', h1, h2, h3, h4, -⟩ :=
      next_spec k bits hk hbits fuel g p run hready hfuel
    have hrest := ih g' p' run' h2 (le_trans h4 hfuel)
    rw [h3] at hrest
    simp only [calls, h1, hrest]
    rw [range_map_getElem?_cons]

end KmerGenerator

end oligo

namespace oligo

theorem mask_eq (k bits : Nat) (hbits : 2 * k ≤ bits) :
    complement bits (shlBases bits (complement bits 0) k) = 4 ^ k - 1 := by
  have hd := four_pow_dvd bits k hbits
  have hM : 0 < 2 ^ bits := by positivity
  have hP : 0 < 4 ^ k := by positivity
  have hle : 4 ^ k ≤ 2 ^ bits := Nat.le_of_dvd hM hd
  obtain ⟨m, hm⟩ : ∃ m, 2 ^ bits = m + 1 := ⟨2 ^ bits - 1, by omega⟩
  obtain ⟨q, hq⟩ : ∃ q, 4 ^ k = q + 1 := ⟨4 ^ k - 1, by omega⟩
  have h0 : complement bits 0 = m := by
    simp only [complement, Nat.zero_mod, hm]
    omega
  have hkey : m * (q + 1) = (m + 1) * q + (m - q) := by
    rw [Nat.mul_succ, Nat.succ_mul]
    omega
  have h1 : shlBases bits (complement bits 0) k = m - q := by
    rw [h0]
    simp only [shlBases, hq, hm, hkey]
    rw [Nat.mul_add_mod]
    exact Nat.mod_eq_of_lt (by omega)
  rw [h1]
  simp only [complement, hm, hq]
  rw [Nat.mod_eq_of_lt (by omega)]
  omega

theorem shift_one_and_mask (k bits : Nat) (hbits : 2 * k ≤ bits) :
    (shlBases bits 1 k) &&& (4 ^ k - 1) = 0 := by
  have hd := four_pow_dvd bits k hbits
  rw [four_pow_eq, Nat.and_pow_two_sub_one_eq_mod, ← four_pow_eq]
  simp only [shlBases, Nat.one_mul]
  rw [Nat.mod_mod_of_dvd _ hd, Nat.mod_self]

namespace KmerGenerator

/-- The constructor succeeds when the k-mer fits the type, and leaves a ready
generator with all expected k-mers of the sequence still to come. -/
theorem create_spec (k bits : Nat) (hk : 2 ≤ k) (hbits : 2 * k ≤ bits) (bases : List Nat) :
    ∃ (g : KmerGenerator) (p : Nat) (run : List Nat),
      create k bits bases = Except.ok g ∧ g.Ready k p run ∧
      expectedKmers k p (run ++ g.remaining) = expectedKmers k 0 bases ∧
      g.remaining.length ≤ bases.length ∧ g.end_ = bases.length := by
  obtain ⟨p', run', g1, g2, g3, g4, g5, g6, g7⟩ :=
    initializeLoop_spec k bits hbits bases 0 0 0 0 [] rfl (by omega) (by simp)
      (by simp [encodeKmer]) rfl
  have hfit : BITS_PER_BASE * k ≤ bits := hbits
  refine ⟨initializeKmer k bits (KmerGenerator.mk 0 bases bases.length (4 ^ k - 1) 0), p', run',
    ?_, ⟨g1, g2, g3, g4, g5, rfl⟩, ?_, g7, rfl⟩
  · simp only [create, hfit, not_true_eq_false, if_false, mask_eq k bits hbits,
      shift_one_and_mask k bits hbits, ne_eq]
  · simpa [initializeKmer] using g6

end KmerGenerator

end oligo

namespace oligo

theorem expectedKmers_mem (k : Nat) (hk : 1 ≤ k) (kmer q : Nat) (l : List Nat) :
    ∀ p : Nat, (kmer, q) ∈ expectedKmers k p l ↔
      ∃ i, q = p + i ∧ i + k ≤ l.length ∧
        (∀ x ∈ (l.drop i).take k, x < INVALID_OLIGO) ∧
        kmer = encodeKmer ((l.drop i).take k) := by
  induction l with
  | nil =>
    intro p
    simp only [expectedKmers, List.not_mem_nil, List.length_nil, false_iff, not_exists, not_and]
    intro i _ hi
    omega
  | cons b rest ih =>
    intro p
    rw [expectedKmers_cons, List.mem_append, ih (p + 1)]
    constructor
    · rintro (h | ⟨i, h1, h2, h3, h4⟩)
      · by_cases hc : k ≤ (b :: rest).length ∧ ∀ x ∈ (b :: rest).take k, x < INVALID_OLIGO
        · rw [if_pos hc, List.mem_singleton, Prod.mk.injEq] at h
          exact ⟨0, by omega, by simpa using hc.1, by simpa using hc.2, by simpa using h.1⟩
        · rw [if_neg hc] at h
          simp at h
      · exact ⟨i + 1, by omega, by simp only [List.length_cons]; omega, by simpa using h3,
          by simpa using h4⟩
    · rintro ⟨i, h1, h2, h3, h4⟩
      cases i with
      | zero =>
        left
        have hc : k ≤ (b :: rest).length ∧ ∀ x ∈ (b :: rest).take k, x < INVALID_OLIGO :=
          ⟨by omega, by simpa using h3⟩
        rw [if_pos hc, List.mem_singleton, Prod.mk.injEq]
        exact ⟨by simpa using h4, by omega⟩
      | succ j =>
        right
        exact ⟨j, by omega, by simp only [List.length_cons] at h2; omega, by simpa using h3,
          by simpa using h4⟩

theorem expectedKmers_pos_le (k : Nat) (l : List Nat) :
    ∀ p : Nat, ∀ e ∈ expectedKmers k p l, p ≤ e.2 := by
  induction l with
  | nil => intro p e he; simp [expectedKmers] at he
  | cons b rest ih =>
    intro p e he
    rw [expectedKmers_cons, List.mem_append] at he
    rcases he with h | h
    · split at h
      · rw [List.mem_singleton.mp h]
      · simp at h
    · have := ih (p + 1) e h
      omega

theorem expectedKmers_increasing (k : Nat) (l : List Nat) :
    ∀ p : Nat, ((expectedKmers k p l).map (fun e => e.2)).Pairwise (fun a b => a < b) := by
  induction l with
  | nil => intro p; simp [expectedKmers]
  | cons b rest ih =>
    intro p
    rw [expectedKmers_cons]
    split
    · simp only [List.singleton_append, List.map_cons, List.pairwise_cons, List.mem_map,
        forall_exists_index, and_imp]
      refine ⟨?_, ih (p + 1)⟩
      intro a e he hea
      have := expectedKmers_pos_le k rest (p + 1) e he
      omega
    · simpa using ih (p + 1)

theorem expectedKmers_length (k : Nat) (hk : 1 ≤ k) (l : List Nat)
    (hvalid : ∀ x ∈ l, x < INVALID_OLIGO) :
    ∀ p : Nat, (expectedKmers k p l).length = l.length + 1 - k := by
  induction l with
  | nil =>
    intro p
    simp only [expectedKmers, List.length_nil]
    omega
  | cons b rest ih =>
    intro p
    rw [expectedKmers_cons, List.length_append,
      ih (fun x hx => hvalid x (List.mem_cons_of_mem _ hx)) (p + 1)]
    by_cases hc : k ≤ (b :: rest).length
    · have hc2 : k ≤ (b :: rest).length ∧ ∀ x ∈ (b :: rest).take k, x < INVALID_OLIGO :=
        ⟨hc, fun x hx => hvalid x (List.mem_of_mem_take hx)⟩
      rw [if_pos hc2]
      simp only [List.length_cons, List.length_nil] at hc ⊢
      omega
    · rw [if_neg (fun h => hc h.1)]
      simp only [List.length_cons, List.length_nil] at hc ⊢
      omega

end oligo

namespace oligo

namespace KmerGenerator

/-- C18: for `kmerLength >= 2` whose `2 * kmerLength` bits fit in `T` the
constructor succeeds, and successive calls of `next(kmer, position)` return true
once for each window of `kmerLength` elements without invalid base, in strictly
increasing order of its position `p`, with `position = p` and `kmer` the
encoding of the window at two bits per base (first base most significant, below
`4 ^ kmerLength`), and false afterwards; a sequence of `n >= kmerLength` valid
bases gives `n - kmerLength + 1` k-mers, a sequence shorter than `kmerLength`
none. -/
theorem next_yields_valid_kmers (k bits : Nat) (bases : List Nat) (hk : 2 ≤ k)
    (hbits : 2 * k ≤ bits) :
    ∃ g, create k bits bases = Except.ok g ∧
      (∀ n fuel, bases.length ≤ fuel →
        calls k bits fuel n g =
          some ((List.range n).map (fun i => (expectedKmers k 0 bases)[i]?))) ∧
      (∀ kmer p, (kmer, p) ∈ expectedKmers k 0 bases ↔
        p + k ≤ bases.length ∧ (∀ x ∈ (bases.drop p).take k, x < INVALID_OLIGO) ∧
          kmer = encodeKmer ((bases.drop p).take k)) ∧
      ((expectedKmers k 0 bases).map (fun e => e.2)).Pairwise (fun a b => a < b) ∧
      (∀ e ∈ expectedKmers k 0 bases, e.1 < 4 ^ k) ∧
      ((∀ x ∈ bases, x < INVALID_OLIGO) → k ≤ bases.length →
        (expectedKmers k 0 bases).length = bases.length - k + 1) ∧
      (bases.length < k → expectedKmers k 0 bases = []) := by
  obtain ⟨g, p, run, h1, h2, h3, h4, -⟩ := create_spec k bits hk hbits bases
  have hmem : ∀ kmer q, (kmer, q) ∈ expectedKmers k 0 bases ↔
      q + k ≤ bases.length ∧ (∀ x ∈ (bases.drop q).take k, x < INVALID_OLIGO) ∧
        kmer = encodeKmer ((bases.drop q).take k) := by
    intro kmer q
    rw [expectedKmers_mem k (by omega) kmer q bases 0]
    constructor
    · rintro ⟨i, hi, r1, r2, r3⟩
      have : q = i := by omega
      subst this
      exact ⟨r1, r2, r3⟩
    · rintro ⟨r1, r2, r3⟩
      exact ⟨q, by omega, r1, r2, r3⟩
  refine ⟨g, h1, ?_, hmem, expectedKmers_increasing k bases 0, ?_, ?_,
    expectedKmers_short k bases 0⟩
  · intro n fuel hfuel
    rw [calls_spec k bits hk hbits fuel n g p run h2 (le_trans h4 hfuel), h3]
  · rintro ⟨kmer, q⟩ he
    obtain ⟨r1, r2, r3⟩ := (hmem kmer q).mp he
    have hlen : ((bases.drop q).take k).length = k := by
      rw [List.length_take, List.length_drop]
      omega
    have := encodeKmer_lt _ r2
    rw [hlen] at this
    simpa [r3] using this
  · intro hvalid hlen
    rw [expectedKmers_length k (by omega) bases hvalid 0]
    omega

/-- Witness of C18: 3-mers of `ACGTNCCAG` in a 64-bit type. -/
theorem next_yields_valid_kmers_witness :
    (2 ≤ 3 ∧ 2 * 3 ≤ 64) ∧
    (∃ g, create 3 64 sampleBases = Except.ok g ∧
      (∀ n fuel, sampleBases.length ≤ fuel →
        calls 3 64 fuel n g =
          some ((List.range n).map (fun i => (expectedKmers 3 0 sampleBases)[i]?))) ∧
      (∀ kmer p, (kmer, p) ∈ expectedKmers 3 0 sampleBases ↔
        p + 3 ≤ sampleBases.length ∧
          (∀ x ∈ (sampleBases.drop p).take 3, x < INVALID_OLIGO) ∧
          kmer = encodeKmer ((sampleBases.drop p).take 3)) ∧
      ((expectedKmers 3 0 sampleBases).map (fun e => e.2)).Pairwise (fun a b => a < b) ∧
      (∀ e ∈ expectedKmers 3 0 sampleBases, e.1 < 4 ^ 3) ∧
      ((∀ x ∈ sampleBases, x < INVALID_OLIGO) → 3 ≤ sampleBases.length →
        (expectedKmers 3 0 sampleBases).length = sampleBases.length - 3 + 1) ∧
      (sampleBases.length < 3 → expectedKmers 3 0 sampleBases = [])) ∧
    expectedKmers 3 0 sampleBases = [(6, 0), (27, 1), (20, 5), (18, 6)] :=
  ⟨by decide, next_yields_valid_kmers 3 64 sampleBases (by decide) (by decide), by decide⟩

theorem skipInvalid_stuck (fuel : Nat) : skipInvalid 1 64 fuel sampleStuck = none := by
  induction fuel with
  | zero => rfl
  | succ f ih =>
    have h1 : sampleStuck.atInvalid = true := rfl
    have h2 : sampleStuck.initializeKmer 1 64 = sampleStuck := rfl
    simp only [skipInvalid, h1, if_true, h2, ih]

/-- C20, the code at a failing input: for k-mers of length 1 over the sequence
`N` the constructor leaves the generator at the invalid base, `initialize()`
does not move it, and the loop of `next` never ends: no amount of fuel lets
`next(kmer, position)` or `next(kmer)` return. -/
theorem next_diverges_for_length_one :
    create 1 64 [4] = Except.ok sampleStuck ∧
    sampleStuck.initializeKmer 1 64 = sampleStuck ∧
    ∀ fuel, next 1 64 fuel sampleStuck = none ∧ nextIterator 1 64 fuel sampleStuck = none := by
  refine ⟨rfl, rfl, ?_⟩
  intro fuel
  simp only [next, nextIterator, skipInvalid_stuck fuel, and_self]

end KmerGenerator

end oligo

namespace TemplateBuilder

open FragmentBuilder

/-- Witness of C17: buffers that hold fragments of an earlier cluster for reads
0, 1 and 2, and a call for reads 0 and 1. -/
theorem buildFragments_reuses_buffers_witness :
    (∀ r ∈ sampleReads, r.getIndex < sampleBuffers.fragments_.length) ∧
    (∃ ret st', buildFragments sampleCombine sampleBuild sampleReads sampleBuffers =
        some (ret, st') ∧
      st'.fragments_.length = sampleBuffers.fragments_.length ∧
      (∀ r ∈ sampleReads, ∃ l,
        lastOutputFor r.getIndex
          (oracleCalls sampleBuild sampleReads sampleBuffers.fragmentBuilder_ []) = some l ∧
        st'.fragments_[r.getIndex]? = some l) ∧
      (∀ i, (∀ r ∈ sampleReads, r.getIndex ≠ i) →
        st'.fragments_[i]? = sampleBuffers.fragments_[i]?) ∧
      ((sampleReads.map ReadMetadata.getIndex).Nodup →
        ∀ c ∈ oracleCalls sampleBuild sampleReads sampleBuffers.fragmentBuilder_ [],
          st'.fragments_[c.1.getIndex]? = some c.2.fragmentList) ∧
      (oracleCalls sampleBuild sampleReads sampleBuffers.fragmentBuilder_ []).head? =
        sampleReads.head?.map
          (fun r => (r, sampleBuild sampleBuffers.fragmentBuilder_ [] r []))) ∧
    (buildFragments sampleCombine sampleBuild sampleReads sampleBuffers).map
        (fun x => (x.2.fragments_, x.2.cigarBuffer_)) =
      some ([[sampleFragment], [], [sampleFragment]], [0x640]) :=
  ⟨by decide,
    buildFragments_reuses_buffers sampleCombine sampleBuild sampleReads sampleBuffers
      (by decide),
    by decide⟩

end TemplateBuilder

/-! ## Begin and end of a `Gap` -/

namespace ReferencePosition

theorem le_shift (p : ReferencePosition) (n : Nat) :
    p < p.shift (n : Int) ∨ p = p.shift (n : Int) := by
  have hpos : ((p.position : Int) + (n : Int)).toNat = p.position + n := by omega
  rcases Nat.eq_zero_or_pos n with h | h
  · right
    rw [eq_iff]
    simp only [shift, hpos, true_and]
    omega
  · left
    rw [lt_iff]
    simp only [shift, hpos, lt_self_iff_false, true_and, false_or]
    omega

end ReferencePosition

namespace Gap

theorem getEndPos_eval (g : Gap) (flag : Bool) (hmin : INT_MIN < g.length_)
    (hmax : g.length_ ≤ INT_MAX) :
    g.getEndPos flag =
      Except.ok (if g.isDeletion || flag then g.pos_.shift (g.length_.natAbs : Int)
        else g.pos_) := by
  unfold getEndPos
  by_cases h : (g.isDeletion || flag) = true
  · simp only [h, if_true, stdAbs, hmin, hmax, and_self]
  · simp only [h, if_false, Bool.false_eq_true]

/-- C22: `getEndPos` is determined by the kind of the gap. For a deletion it is
`pos_ + length_` for both flag values, the value of `getDeletionEndPos()`; for an
insertion it is `pos_` without the flag and `pos_ + |length_|` with it; for a
zero-length gap it is `pos_` for both. So `getBeginPos() <= getEndPos(flag)` for
every flag, and `getEndPos(false) <= getEndPos(true)`. -/
theorem getEndPos_by_kind (g : Gap) (flag : Bool) (hmin : INT_MIN < g.length_)
    (hmax : g.length_ ≤ INT_MAX) :
    (0 < g.length_ →
      g.getEndPos false = Except.ok (g.pos_.shift g.length_) ∧
      g.getEndPos true = Except.ok (g.pos_.shift g.length_) ∧
      g.getDeletionEndPos = Except.ok (g.pos_.shift g.length_)) ∧
    (g.length_ < 0 →
      g.getEndPos false = Except.ok g.pos_ ∧
      g.getEndPos true = Except.ok (g.pos_.shift |g.length_|)) ∧
    (g.length_ = 0 →
      g.getEndPos false = Except.ok g.pos_ ∧ g.getEndPos true = Except.ok g.pos_) ∧
    (∃ e, g.getEndPos flag = Except.ok e ∧ (g.getBeginPos < e ∨ g.getBeginPos = e)) ∧
    (∃ e0 e1, g.getEndPos false = Except.ok e0 ∧ g.getEndPos true = Except.ok e1 ∧
      (e0 < e1 ∨ e0 = e1)) := by
  have habs : ((g.length_.natAbs : Nat) : Int) = |g.length_| := Int.natCast_natAbs _
  refine ⟨?_, ?_, ?_, ?_, ?_⟩
  · intro hpos
    have hd : g.isDeletion = true := by simp [isDeletion, hpos]
    have hn : ((g.length_.natAbs : Nat) : Int) = g.length_ := by omega
    refine ⟨?_, ?_, ?_⟩
    · rw [getEndPos_eval g false hmin hmax]
      simp only [hd, Bool.true_or, if_true, hn]
    · rw [getEndPos_eval g true hmin hmax]
      simp only [hd, Bool.true_or, if_true, hn]
    · simp only [getDeletionEndPos, hd, if_true, stdAbs, hmin, hmax, and_self, hn]
  · intro hneg
    have hd : g.isDeletion = false := by
      simp only [isDeletion, decide_eq_false_iff_not]
      omega
    refine ⟨?_, ?_⟩
    · rw [getEndPos_eval g false hmin hmax]
      simp only [hd, Bool.or_self, Bool.false_eq_true, if_false]
    · rw [getEndPos_eval g true hmin hmax]
      simp only [Bool.or_true, if_true, habs]
  · intro hzero
    have hd : g.isDeletion = false := by
      simp only [isDeletion, decide_eq_false_iff_not]
      omega
    have hshift : g.pos_.shift ((g.length_.natAbs : Nat) : Int) = g.pos_ := by
      rw [ReferencePosition.eq_iff]
      simp only [ReferencePosition.shift, true_and]
      omega
    refine ⟨?_, ?_⟩
    · rw [getEndPos_eval g false hmin hmax]
      simp only [hd, Bool.or_self, Bool.false_eq_true, if_false]
    · rw [getEndPos_eval g true hmin hmax]
      simp only [Bool.or_true, if_true, hshift]
  · refine ⟨_, getEndPos_eval g flag hmin hmax, ?_⟩
    unfold getBeginPos
    by_cases h : (g.isDeletion || flag) = true
    · simp only [h, if_true]
      exact ReferencePosition.le_shift g.pos_ g.length_.natAbs
    · simp only [h, if_false, Bool.false_eq_true, or_true]
  · refine ⟨_, _, getEndPos_eval g false hmin hmax, getEndPos_eval g true hmin hmax, ?_⟩
    simp only [Bool.or_false, Bool.or_true, if_true]
    by_cases h : g.isDeletion = true
    · simp only [h, if_true, or_true]
    · simp only [h, if_false, Bool.false_eq_true]
      exact ReferencePosition.le_shift g.pos_ g.length_.natAbs

/-- Witness of C22: an insertion of 2 bases at position 100. -/
theorem getEndPos_by_kind_witness :
    (INT_MIN < (Gap.mk samplePos (-2) 1).length_ ∧ (Gap.mk samplePos (-2) 1).length_ ≤ INT_MAX ∧
      (Gap.mk samplePos (-2) 1).length_ < 0) ∧
    (Gap.mk samplePos (-2) 1).getEndPos false = Except.ok (ReferencePosition.mk 0 100) ∧
    (Gap.mk samplePos (-2) 1).getEndPos true = Except.ok (ReferencePosition.mk 0 102) :=
  ⟨by decide,
    ((getEndPos_by_kind (Gap.mk samplePos (-2) 1) false (by decide) (by decide)).2.1
      (by decide)).1,
    ((getEndPos_by_kind (Gap.mk samplePos (-2) 1) false (by decide) (by decide)).2.1
      (by decide)).2⟩

end Gap

/-! ## The greatest k-mer -/

namespace oligo

theorem MaxKmer_eq (bits : Nat) (overshift : Nat → Nat → Nat) (k : Nat)
    (hk : 2 * k < bits) (h32 : bits ≤ 2 ^ 32) :
    MaxKmer bits overshift k = 4 ^ k - 1 := by
  have hlt : 2 ^ (2 * k) < 2 ^ bits := Nat.pow_lt_pow_right (by omega) hk
  have hpos : 0 < 2 ^ (2 * k) := by positivity
  unfold MaxKmer
  rw [Nat.mod_eq_of_lt (show 2 * k < 2 ^ 32 by omega)]
  simp only [shl, hk, if_true, Nat.one_mul, Nat.mod_eq_of_lt hlt]
  rw [show 2 ^ (2 * k) + (2 ^ bits - 1) = (2 ^ (2 * k) - 1) + 2 ^ bits by omega,
    Nat.add_mod_right, four_pow_eq]
  exact Nat.mod_eq_of_lt (by omega)

theorem getMaxKmer_eq (bits : Nat) (overshift : Nat → Nat → Nat) (k : Nat)
    (hk : 2 * k < bits) (h32 : bits ≤ 2 ^ 32) :
    getMaxKmer bits overshift k = 4 ^ k - 1 := by
  have hshl : shl bits overshift (complement bits 0) ((2 * k) % 2 ^ 32) =
      shlBases bits (complement bits 0) k := by
    rw [Nat.mod_eq_of_lt (show 2 * k < 2 ^ 32 by omega)]
    simp only [shl, hk, if_true, shlBases, four_pow_eq]
  unfold getMaxKmer
  rw [hshl]
  exact mask_eq k bits (by omega)

/-- C23: for `2 * kmerLength` strictly below the width of the unsigned type,
`getMaxKmer<KmerT>(kmerLength)` and `MaxKmer<kmerLength, KmerT>::value` are both
`4 ^ kmerLength - 1`, the value with exactly the low `2 * kmerLength` bits set,
and this is the mask that `generateKmer` applies. -/
theorem getMaxKmer_eq_MaxKmer (bits : Nat) (overshift : Nat → Nat → Nat) (k : Nat)
    (kmer : Nat) (remaining : List Nat) (hk : 2 * k < bits) (h32 : bits ≤ 2 ^ 32) :
    getMaxKmer bits overshift k = MaxKmer bits overshift k ∧
    MaxKmer bits overshift k = 4 ^ k - 1 ∧
    (∀ i, (getMaxKmer bits overshift k).testBit i = decide (i < 2 * k)) ∧
    generateKmer bits overshift k kmer remaining =
      match generateKmerLoop bits k kmer remaining with
      | none => (false, none)
      | some shifted => (true, some (shifted &&& MaxKmer bits overshift k)) := by
  refine ⟨?_, MaxKmer_eq bits overshift k hk h32, ?_, rfl⟩
  · rw [getMaxKmer_eq bits overshift k hk h32, MaxKmer_eq bits overshift k hk h32]
  · intro i
    rw [getMaxKmer_eq bits overshift k hk h32, four_pow_eq, Nat.testBit_two_pow_sub_one]

/-- Witness of C23: 16-mers in a 64-bit type. -/
theorem getMaxKmer_eq_MaxKmer_witness :
    (2 * 16 < 64 ∧ 64 ≤ 2 ^ 32) ∧
    getMaxKmer 64 sampleOvershift 16 = MaxKmer 64 sampleOvershift 16 ∧
    MaxKmer 64 sampleOvershift 16 = 4 ^ 16 - 1 ∧
    getMaxKmer 64 sampleOvershift 16 = 0xFFFFFFFF :=
  ⟨by decide,
    (getMaxKmer_eq_MaxKmer 64 sampleOvershift 16 0 [] (by decide) (by decide)).1,
    (getMaxKmer_eq_MaxKmer 64 sampleOvershift 16 0 [] (by decide) (by decide)).2.1,
    by decide⟩

end oligo

/-! ## Attributes of BAM flowcells -/

namespace flowcell

namespace Layout

/-- C24, the code at a failing input: for a layout whose format is `Bam` and
whose data is a `BamFlowcellData`, `getAttribute<Layout::Bam,
BamVariableLengthOk>` fails its assertion, which reads `Fastq == format_`, and
it does so for every layout of format `Bam`; the getter of
`BamFilePathAttributeTag` succeeds exactly when the format is `Bam` and then
gives `baseCallsPath_`. -/
theorem getAttributeBamVariableLengthOk_fails_for_bam :
    sampleBamLayout.format_ = Format.Bam ∧
    sampleBamLayout.formatSpecificData_ = FormatSpecificData.bam (BamFlowcellData.mk true) ∧
    sampleBamLayout.getAttributeBamVariableLengthOk =
      Except.error (Failure.assertion " is only allowed for fastq flowcells") ∧
    (∀ l : Layout, l.format_ = Format.Bam →
      ∃ message, l.getAttributeBamVariableLengthOk =
        Except.error (Failure.assertion message)) ∧
    (∀ (l : Layout) (r : String),
      l.getAttributeBamFilePath = Except.ok r ↔
        l.format_ = Format.Bam ∧ r = l.baseCallsPath_) := by
  refine ⟨rfl, rfl, rfl, ?_, ?_⟩
  · intro l hl
    refine ⟨" is only allowed for fastq flowcells", ?_⟩
    simp only [getAttributeBamVariableLengthOk, hl, reduceCtorEq, if_false]
  · intro l r
    unfold getAttributeBamFilePath
    by_cases h : Format.Bam = l.format_
    · simp only [h, if_true, Except.ok.injEq, true_and]
      exact eq_comm
    · have h2 : ¬ l.format_ = Format.Bam := fun e => h e.symm
      simp only [h, if_false, reduceCtorEq, h2, false_and]

end Layout

end flowcell

/-! ## Loading contigs into the preallocated list -/

namespace reference

theorem loadContigsParallel_cons_ok (shouldLoad : Nat → Bool)
    (loadContig : SortedReferenceMetadata.Contig → Contig → Contig)
    (x : SortedReferenceMetadata.Contig) (rest : List SortedReferenceMetadata.Contig)
    (contigList : List Contig) (contig : Contig)
    (hget : contigList[x.karyotypeIndex_]? = some contig)
    (hidx : contig.index_ = x.karyotypeIndex_) :
    loadContigsParallel shouldLoad loadContig (x :: rest) contigList =
      loadContigsParallel shouldLoad loadContig rest
        (contigList.set x.karyotypeIndex_
          (Contig.mk x.index_ x.name_
            (if shouldLoad x.karyotypeIndex_ then loadContig x contig else contig).bases)) := by
  simp only [loadContigsParallel, hget, hidx, if_true]

/-- With every slot of the contigs still to load in its preallocated state and
no two of them on the same slot, the loop completes, leaves index and name of
each contig in its slot, and leaves the other slots as they were. -/
theorem loadContigsParallel_spec (shouldLoad : Nat → Bool)
    (loadContig : SortedReferenceMetadata.Contig → Contig → Contig)
    (xml : List SortedReferenceMetadata.Contig) :
    ∀ contigList : List Contig,
      (∀ c ∈ xml, ∃ contig, contigList[c.karyotypeIndex_]? = some contig ∧
        contig.index_ = c.karyotypeIndex_) →
      (xml.map (fun c => c.karyotypeIndex_)).Nodup →
      ∃ result, loadContigsParallel shouldLoad loadContig xml contigList = Except.ok result ∧
        result.length = contigList.length ∧
        (∀ c ∈ xml, ∃ contig, result[c.karyotypeIndex_]? = some contig ∧
          contig.index_ = c.index_ ∧ contig.name_ = c.name_) ∧
        (∀ j, (∀ c ∈ xml, c.karyotypeIndex_ ≠ j) → result[j]? = contigList[j]?) := by
  induction xml with
  | nil =>
    intro contigList _ _
    exact ⟨contigList, rfl, rfl, by simp, fun j _ => rfl⟩
  | cons x rest ih =>
    intro contigList hslots hnodup
    obtain ⟨contig, hget, hidx⟩ := hslots x (List.mem_cons_self _ _)
    have hlt : x.karyotypeIndex_ < contigList.length := by
      rcases Nat.lt_or_ge x.karyotypeIndex_ contigList.length with h | h
      · exact h
      · rw [List.getElem?_eq_none h] at hget
        cases hget
    simp only [List.map_cons, List.nodup_cons, List.mem_map, not_exists, not_and] at hnodup
    have hne : ∀ c ∈ rest, c.karyotypeIndex_ ≠ x.karyotypeIndex_ :=
      fun c hc => hnodup.1 c hc
    obtain ⟨result, h1, h2, h3, h4⟩ := ih
      (contigList.set x.karyotypeIndex_
        (Contig.mk x.index_ x.name_
          (if shouldLoad x.karyotypeIndex_ then loadContig x contig else contig).bases))
      (by
        intro c hc
        obtain ⟨d, hd1, hd2⟩ := hslots c (List.mem_cons_of_mem _ hc)
        refine ⟨d, ?_, hd2⟩
        rw [List.getElem?_set_ne (fun e => hne c hc e.symm)]
        exact hd1)
      hnodup.2
    refine ⟨result, ?_, ?_, ?_, ?_⟩
    · rw [loadContigsParallel_cons_ok shouldLoad loadContig x rest contigList contig hget hidx]
      exact h1
    · rw [h2, List.length_set]
    · intro c hc
      rcases List.mem_cons.mp hc with h | h
      · subst h
        refine ⟨Contig.mk c.index_ c.name_
          (if shouldLoad c.karyotypeIndex_ then loadContig c contig else contig).bases,
          ?_, rfl, rfl⟩
        rw [h4 c.karyotypeIndex_ hne, List.getElem?_set_self hlt]
      · exact h3 c h
    · intro j hj
      have hjx : x.karyotypeIndex_ ≠ j := hj x (List.mem_cons_self _ _)
      rw [h4 j (fun c hc => hj c (List.mem_cons_of_mem _ hc)), List.getElem?_set_ne hjx]

/-- C21, the code at a failing input, and what the check does establish. Two
contigs with indices 0 and 1 that both have karyotype index 0 are loaded into
the preallocated list without an assertion failure, and slot 0 ends with index
and name of the second: the assertion does not fail for every pair of entries
that share a karyotype index. Whenever the karyotype indices are distinct, in
range, and the list is preallocated with `contigList[i].index_ = i`, the load
completes and every contig finds its index and name in its slot. -/
theorem loadContigsParallel_misses_collision :
    (sampleXmlCollision.map (fun c => c.karyotypeIndex_) = [0, 0] ∧
      loadContigsParallel (fun _ => true) sampleLoadContig sampleXmlCollision
          sampleContigList =
        Except.ok [Contig.mk 1 "chr2" [0, 1], Contig.mk 1 "chr2" []]) ∧
    (∀ (shouldLoad : Nat → Bool)
      (loadContig : SortedReferenceMetadata.Contig → Contig → Contig)
      (xml : List SortedReferenceMetadata.Contig) (contigList : List Contig),
      (∀ (i : Nat) (contig : Contig), contigList[i]? = some contig → contig.index_ = i) →
      (∀ c ∈ xml, c.karyotypeIndex_ < contigList.length) →
      (xml.map (fun c => c.karyotypeIndex_)).Nodup →
      ∃ result, loadContigsParallel shouldLoad loadContig xml contigList = Except.ok result ∧
        ∀ c ∈ xml, ∃ contig, result[c.karyotypeIndex_]? = some contig ∧
          contig.index_ = c.index_ ∧ contig.name_ = c.name_) := by
  refine ⟨⟨rfl, rfl⟩, ?_⟩
  intro shouldLoad loadContig xml contigList hpre hrange hnodup
  obtain ⟨result, h1, -, h3, -⟩ := loadContigsParallel_spec shouldLoad loadContig xml contigList
    (by
      intro c hc
      have hlt := hrange c hc
      exact ⟨contigList[c.karyotypeIndex_], List.getElem?_eq_getElem hlt,
        hpre _ _ (List.getElem?_eq_getElem hlt)⟩)
    hnodup
  exact ⟨result, h1, h3⟩

end reference

end Isaac
